import Mathlib

/-!
Shallow embedding of the two Pygments regex lexers in `book/fstar_pygments.py`
(`CustomLexer` for F* and `PulseLexer` for Pulse), together with proofs about
their tokenization behaviour.

Each lexer is an ordered list of (regex, token-kind) rules, tried in order at
the current scan position; the first rule whose regex matches a prefix of the
remaining input emits a token with the matched text and the scan advances past
it.  Every regex of the source is translated into an anchored matcher
`List Char → Option Nat` returning the length of the (first, in Python
backtracking order) match:

  * `r' '`, `r'\n'`, `r'\r'`           → `singleCharMatch`
  * `r'//.*\n'`                         → `lineCommentMatch`
  * `r'\([*]([^*]|[*]+[^)])*[*]+\)'`    → `blockCommentMatch` (a direct
    implementation of the greedy backtracking search for this regex)
  * `words(kws, suffix=r'\b')`          → `wordsMatch` (a whole-word match is
    unique, so the alternation order is irrelevant)
  * `r'[a-zA-Z_0-9]+'`, `r'[a-zA-Z_]+'` → `charClassPlus`
  * `r'.'`                              → `anyCharMatch` (anything but `'\n'`;
    Pygments compiles with `re.MULTILINE` only, so `.` excludes the newline)

The driving loop `tokenizeF` mirrors Pygments' `RegexLexer.get_tokens_unprocessed`:
on a position where no rule matches, a lone `'\n'` is emitted as `Text` and any
other character as `Error` (this fallback is provably dead for these two rule
sets).  The identifier classes `[a-zA-Z_0-9]` and `[a-zA-Z_]` are ASCII, as in
the source regexes; the `\b` word boundary is Unicode-aware as in Python's
regex engine, via the codepoint table `pyWordRanges`.
-/

set_option maxRecDepth 8192

namespace FStarPygments

/-- Token kinds.  The source imports Pygments' `Text`, `Comment`, `Keyword`
tokens; `Error` is the kind Pygments emits for an unmatched character. -/
inductive Tok where
  | Text : Tok
  | Comment : Tok
  | Keyword : Tok
  | Error : Tok
deriving DecidableEq, Repr

/-- The base keyword tuple `fstar_keywords` of the source, in source order. -/
def fstar_keywords : List String :=
  [ "attributes", "noeq", "unopteq", "and", "assert", "assert_norm",
    "assume", "begin", "by", "calc", "class", "decreases", "Dv", "effect",
    "eliminate", "else", "end", "ensures", "exception", "exists", "false",
    "friend", "forall", "fun", "function", "GTot", "if", "in", "include",
    "inline", "inline_for_extraction", "instance", "introduce", "irreducible",
    "let", "logic", "match", "module", "new", "new_effect", "layered_effect",
    "polymonadic_bind", "polymonadic_subcomp", "SMTPat", "noextract", "of",
    "open", "opaque", "private", "range_of", "rec", "reifiable", "reify",
    "reflectable", "requires", "returns", "set_range_of", "sub_effect",
    "synth", "then", "total", "Tot", "true", "try", "type", "unfold",
    "unfoldable", "val", "when", "with", "_", "Lemma" ]

/-- The extension keyword tuple `pulse_keywords` of the source. -/
def pulse_keywords : List String :=
  [ "fn", "fold", "rewrite", "each", "mut", "ghost", "atomic",
    "show_proof_state", "while", "invariant", "with_invariants", "opens",
    "parallel" ]

/-- Python `\w` restricted to ASCII: letters, digits and underscore.  This is
also exactly the character class `[a-zA-Z_0-9]` of the base identifier rule. -/
def isWordChar (c : Char) : Bool := c.isAlphanum || c = '_'

/-- `[a-zA-Z_]`: the extension lexer's identifier class (no digits). -/
def isIdentNoDigit (c : Char) : Bool := c.isAlpha || c = '_'

/-- Codepoint ranges (inclusive, all at least 128) of the non-ASCII word
characters of Python's regex engine: the Unicode codepoints satisfying
`Py_UNICODE_ISALNUM`, which with the underscore and the ASCII alphanumerics
is exactly what the engine's `\w` and `\b` treat as a word character.
Checked against the engine on every codepoint. -/
def pyWordRanges : List (Nat × Nat) :=
  [ (0xaa, 0xaa), (0xb2, 0xb3), (0xb5, 0xb5), (0xb9, 0xba),
    (0xbc, 0xbe), (0xc0, 0xd6), (0xd8, 0xf6), (0xf8, 0x2c1),
    (0x2c6, 0x2d1), (0x2e0, 0x2e4), (0x2ec, 0x2ec), (0x2ee, 0x2ee),
    (0x370, 0x374), (0x376, 0x377), (0x37a, 0x37d), (0x37f, 0x37f),
    (0x386, 0x386), (0x388, 0x38a), (0x38c, 0x38c), (0x38e, 0x3a1),
    (0x3a3, 0x3f5), (0x3f7, 0x481), (0x48a, 0x52f), (0x531, 0x556),
    (0x559, 0x559), (0x560, 0x588), (0x5d0, 0x5ea), (0x5ef, 0x5f2),
    (0x620, 0x64a), (0x660, 0x669), (0x66e, 0x66f), (0x671, 0x6d3),
    (0x6d5, 0x6d5), (0x6e5, 0x6e6), (0x6ee, 0x6fc), (0x6ff, 0x6ff),
    (0x710, 0x710), (0x712, 0x72f), (0x74d, 0x7a5), (0x7b1, 0x7b1),
    (0x7c0, 0x7ea), (0x7f4, 0x7f5), (0x7fa, 0x7fa), (0x800, 0x815),
    (0x81a, 0x81a), (0x824, 0x824), (0x828, 0x828), (0x840, 0x858),
    (0x860, 0x86a), (0x870, 0x887), (0x889, 0x88e), (0x8a0, 0x8c9),
    (0x904, 0x939), (0x93d, 0x93d), (0x950, 0x950), (0x958, 0x961),
    (0x966, 0x96f), (0x971, 0x980), (0x985, 0x98c), (0x98f, 0x990),
    (0x993, 0x9a8), (0x9aa, 0x9b0), (0x9b2, 0x9b2), (0x9b6, 0x9b9),
    (0x9bd, 0x9bd), (0x9ce, 0x9ce), (0x9dc, 0x9dd), (0x9df, 0x9e1),
    (0x9e6, 0x9f1), (0x9f4, 0x9f9), (0x9fc, 0x9fc), (0xa05, 0xa0a),
    (0xa0f, 0xa10), (0xa13, 0xa28), (0xa2a, 0xa30), (0xa32, 0xa33),
    (0xa35, 0xa36), (0xa38, 0xa39), (0xa59, 0xa5c), (0xa5e, 0xa5e),
    (0xa66, 0xa6f), (0xa72, 0xa74), (0xa85, 0xa8d), (0xa8f, 0xa91),
    (0xa93, 0xaa8), (0xaaa, 0xab0), (0xab2, 0xab3), (0xab5, 0xab9),
    (0xabd, 0xabd), (0xad0, 0xad0), (0xae0, 0xae1), (0xae6, 0xaef),
    (0xaf9, 0xaf9), (0xb05, 0xb0c), (0xb0f, 0xb10), (0xb13, 0xb28),
    (0xb2a, 0xb30), (0xb32, 0xb33), (0xb35, 0xb39), (0xb3d, 0xb3d),
    (0xb5c, 0xb5d), (0xb5f, 0xb61), (0xb66, 0xb6f), (0xb71, 0xb77),
    (0xb83, 0xb83), (0xb85, 0xb8a), (0xb8e, 0xb90), (0xb92, 0xb95),
    (0xb99, 0xb9a), (0xb9c, 0xb9c), (0xb9e, 0xb9f), (0xba3, 0xba4),
    (0xba8, 0xbaa), (0xbae, 0xbb9), (0xbd0, 0xbd0), (0xbe6, 0xbf2),
    (0xc05, 0xc0c), (0xc0e, 0xc10), (0xc12, 0xc28), (0xc2a, 0xc39),
    (0xc3d, 0xc3d), (0xc58, 0xc5a), (0xc5d, 0xc5d), (0xc60, 0xc61),
    (0xc66, 0xc6f), (0xc78, 0xc7e), (0xc80, 0xc80), (0xc85, 0xc8c),
    (0xc8e, 0xc90), (0xc92, 0xca8), (0xcaa, 0xcb3), (0xcb5, 0xcb9),
    (0xcbd, 0xcbd), (0xcdd, 0xcde), (0xce0, 0xce1), (0xce6, 0xcef),
    (0xcf1, 0xcf2), (0xd04, 0xd0c), (0xd0e, 0xd10), (0xd12, 0xd3a),
    (0xd3d, 0xd3d), (0xd4e, 0xd4e), (0xd54, 0xd56), (0xd58, 0xd61),
    (0xd66, 0xd78), (0xd7a, 0xd7f), (0xd85, 0xd96), (0xd9a, 0xdb1),
    (0xdb3, 0xdbb), (0xdbd, 0xdbd), (0xdc0, 0xdc6), (0xde6, 0xdef),
    (0xe01, 0xe30), (0xe32, 0xe33), (0xe40, 0xe46), (0xe50, 0xe59),
    (0xe81, 0xe82), (0xe84, 0xe84), (0xe86, 0xe8a), (0xe8c, 0xea3),
    (0xea5, 0xea5), (0xea7, 0xeb0), (0xeb2, 0xeb3), (0xebd, 0xebd),
    (0xec0, 0xec4), (0xec6, 0xec6), (0xed0, 0xed9), (0xedc, 0xedf),
    (0xf00, 0xf00), (0xf20, 0xf33), (0xf40, 0xf47), (0xf49, 0xf6c),
    (0xf88, 0xf8c), (0x1000, 0x102a), (0x103f, 0x1049), (0x1050, 0x1055),
    (0x105a, 0x105d), (0x1061, 0x1061), (0x1065, 0x1066), (0x106e, 0x1070),
    (0x1075, 0x1081), (0x108e, 0x108e), (0x1090, 0x1099), (0x10a0, 0x10c5),
    (0x10c7, 0x10c7), (0x10cd, 0x10cd), (0x10d0, 0x10fa), (0x10fc, 0x1248),
    (0x124a, 0x124d), (0x1250, 0x1256), (0x1258, 0x1258), (0x125a, 0x125d),
    (0x1260, 0x1288), (0x128a, 0x128d), (0x1290, 0x12b0), (0x12b2, 0x12b5),
    (0x12b8, 0x12be), (0x12c0, 0x12c0), (0x12c2, 0x12c5), (0x12c8, 0x12d6),
    (0x12d8, 0x1310), (0x1312, 0x1315), (0x1318, 0x135a), (0x1369, 0x137c),
    (0x1380, 0x138f), (0x13a0, 0x13f5), (0x13f8, 0x13fd), (0x1401, 0x166c),
    (0x166f, 0x167f), (0x1681, 0x169a), (0x16a0, 0x16ea), (0x16ee, 0x16f8),
    (0x1700, 0x1711), (0x171f, 0x1731), (0x1740, 0x1751), (0x1760, 0x176c),
    (0x176e, 0x1770), (0x1780, 0x17b3), (0x17d7, 0x17d7), (0x17dc, 0x17dc),
    (0x17e0, 0x17e9), (0x17f0, 0x17f9), (0x1810, 0x1819), (0x1820, 0x1878),
    (0x1880, 0x1884), (0x1887, 0x18a8), (0x18aa, 0x18aa), (0x18b0, 0x18f5),
    (0x1900, 0x191e), (0x1946, 0x196d), (0x1970, 0x1974), (0x1980, 0x19ab),
    (0x19b0, 0x19c9), (0x19d0, 0x19da), (0x1a00, 0x1a16), (0x1a20, 0x1a54),
    (0x1a80, 0x1a89), (0x1a90, 0x1a99), (0x1aa7, 0x1aa7), (0x1b05, 0x1b33),
    (0x1b45, 0x1b4c), (0x1b50, 0x1b59), (0x1b83, 0x1ba0), (0x1bae, 0x1be5),
    (0x1c00, 0x1c23), (0x1c40, 0x1c49), (0x1c4d, 0x1c7d), (0x1c80, 0x1c88),
    (0x1c90, 0x1cba), (0x1cbd, 0x1cbf), (0x1ce9, 0x1cec), (0x1cee, 0x1cf3),
    (0x1cf5, 0x1cf6), (0x1cfa, 0x1cfa), (0x1d00, 0x1dbf), (0x1e00, 0x1f15),
    (0x1f18, 0x1f1d), (0x1f20, 0x1f45), (0x1f48, 0x1f4d), (0x1f50, 0x1f57),
    (0x1f59, 0x1f59), (0x1f5b, 0x1f5b), (0x1f5d, 0x1f5d), (0x1f5f, 0x1f7d),
    (0x1f80, 0x1fb4), (0x1fb6, 0x1fbc), (0x1fbe, 0x1fbe), (0x1fc2, 0x1fc4),
    (0x1fc6, 0x1fcc), (0x1fd0, 0x1fd3), (0x1fd6, 0x1fdb), (0x1fe0, 0x1fec),
    (0x1ff2, 0x1ff4), (0x1ff6, 0x1ffc), (0x2070, 0x2071), (0x2074, 0x2079),
    (0x207f, 0x2089), (0x2090, 0x209c), (0x2102, 0x2102), (0x2107, 0x2107),
    (0x210a, 0x2113), (0x2115, 0x2115), (0x2119, 0x211d), (0x2124, 0x2124),
    (0x2126, 0x2126), (0x2128, 0x2128), (0x212a, 0x212d), (0x212f, 0x2139),
    (0x213c, 0x213f), (0x2145, 0x2149), (0x214e, 0x214e), (0x2150, 0x2189),
    (0x2460, 0x249b), (0x24ea, 0x24ff), (0x2776, 0x2793), (0x2c00, 0x2ce4),
    (0x2ceb, 0x2cee), (0x2cf2, 0x2cf3), (0x2cfd, 0x2cfd), (0x2d00, 0x2d25),
    (0x2d27, 0x2d27), (0x2d2d, 0x2d2d), (0x2d30, 0x2d67), (0x2d6f, 0x2d6f),
    (0x2d80, 0x2d96), (0x2da0, 0x2da6), (0x2da8, 0x2dae), (0x2db0, 0x2db6),
    (0x2db8, 0x2dbe), (0x2dc0, 0x2dc6), (0x2dc8, 0x2dce), (0x2dd0, 0x2dd6),
    (0x2dd8, 0x2dde), (0x2e2f, 0x2e2f), (0x3005, 0x3007), (0x3021, 0x3029),
    (0x3031, 0x3035), (0x3038, 0x303c), (0x3041, 0x3096), (0x309d, 0x309f),
    (0x30a1, 0x30fa), (0x30fc, 0x30ff), (0x3105, 0x312f), (0x3131, 0x318e),
    (0x3192, 0x3195), (0x31a0, 0x31bf), (0x31f0, 0x31ff), (0x3220, 0x3229),
    (0x3248, 0x324f), (0x3251, 0x325f), (0x3280, 0x3289), (0x32b1, 0x32bf),
    (0x3400, 0x4dbf), (0x4e00, 0xa48c), (0xa4d0, 0xa4fd), (0xa500, 0xa60c),
    (0xa610, 0xa62b), (0xa640, 0xa66e), (0xa67f, 0xa69d), (0xa6a0, 0xa6ef),
    (0xa717, 0xa71f), (0xa722, 0xa788), (0xa78b, 0xa7ca), (0xa7d0, 0xa7d1),
    (0xa7d3, 0xa7d3), (0xa7d5, 0xa7d9), (0xa7f2, 0xa801), (0xa803, 0xa805),
    (0xa807, 0xa80a), (0xa80c, 0xa822), (0xa830, 0xa835), (0xa840, 0xa873),
    (0xa882, 0xa8b3), (0xa8d0, 0xa8d9), (0xa8f2, 0xa8f7), (0xa8fb, 0xa8fb),
    (0xa8fd, 0xa8fe), (0xa900, 0xa925), (0xa930, 0xa946), (0xa960, 0xa97c),
    (0xa984, 0xa9b2), (0xa9cf, 0xa9d9), (0xa9e0, 0xa9e4), (0xa9e6, 0xa9fe),
    (0xaa00, 0xaa28), (0xaa40, 0xaa42), (0xaa44, 0xaa4b), (0xaa50, 0xaa59),
    (0xaa60, 0xaa76), (0xaa7a, 0xaa7a), (0xaa7e, 0xaaaf), (0xaab1, 0xaab1),
    (0xaab5, 0xaab6), (0xaab9, 0xaabd), (0xaac0, 0xaac0), (0xaac2, 0xaac2),
    (0xaadb, 0xaadd), (0xaae0, 0xaaea), (0xaaf2, 0xaaf4), (0xab01, 0xab06),
    (0xab09, 0xab0e), (0xab11, 0xab16), (0xab20, 0xab26), (0xab28, 0xab2e),
    (0xab30, 0xab5a), (0xab5c, 0xab69), (0xab70, 0xabe2), (0xabf0, 0xabf9),
    (0xac00, 0xd7a3), (0xd7b0, 0xd7c6), (0xd7cb, 0xd7fb), (0xf900, 0xfa6d),
    (0xfa70, 0xfad9), (0xfb00, 0xfb06), (0xfb13, 0xfb17), (0xfb1d, 0xfb1d),
    (0xfb1f, 0xfb28), (0xfb2a, 0xfb36), (0xfb38, 0xfb3c), (0xfb3e, 0xfb3e),
    (0xfb40, 0xfb41), (0xfb43, 0xfb44), (0xfb46, 0xfbb1), (0xfbd3, 0xfd3d),
    (0xfd50, 0xfd8f), (0xfd92, 0xfdc7), (0xfdf0, 0xfdfb), (0xfe70, 0xfe74),
    (0xfe76, 0xfefc), (0xff10, 0xff19), (0xff21, 0xff3a), (0xff41, 0xff5a),
    (0xff66, 0xffbe), (0xffc2, 0xffc7), (0xffca, 0xffcf), (0xffd2, 0xffd7),
    (0xffda, 0xffdc), (0x10000, 0x1000b), (0x1000d, 0x10026), (0x10028, 0x1003a),
    (0x1003c, 0x1003d), (0x1003f, 0x1004d), (0x10050, 0x1005d), (0x10080, 0x100fa),
    (0x10107, 0x10133), (0x10140, 0x10178), (0x1018a, 0x1018b), (0x10280, 0x1029c),
    (0x102a0, 0x102d0), (0x102e1, 0x102fb), (0x10300, 0x10323), (0x1032d, 0x1034a),
    (0x10350, 0x10375), (0x10380, 0x1039d), (0x103a0, 0x103c3), (0x103c8, 0x103cf),
    (0x103d1, 0x103d5), (0x10400, 0x1049d), (0x104a0, 0x104a9), (0x104b0, 0x104d3),
    (0x104d8, 0x104fb), (0x10500, 0x10527), (0x10530, 0x10563), (0x10570, 0x1057a),
    (0x1057c, 0x1058a), (0x1058c, 0x10592), (0x10594, 0x10595), (0x10597, 0x105a1),
    (0x105a3, 0x105b1), (0x105b3, 0x105b9), (0x105bb, 0x105bc), (0x10600, 0x10736),
    (0x10740, 0x10755), (0x10760, 0x10767), (0x10780, 0x10785), (0x10787, 0x107b0),
    (0x107b2, 0x107ba), (0x10800, 0x10805), (0x10808, 0x10808), (0x1080a, 0x10835),
    (0x10837, 0x10838), (0x1083c, 0x1083c), (0x1083f, 0x10855), (0x10858, 0x10876),
    (0x10879, 0x1089e), (0x108a7, 0x108af), (0x108e0, 0x108f2), (0x108f4, 0x108f5),
    (0x108fb, 0x1091b), (0x10920, 0x10939), (0x10980, 0x109b7), (0x109bc, 0x109cf),
    (0x109d2, 0x10a00), (0x10a10, 0x10a13), (0x10a15, 0x10a17), (0x10a19, 0x10a35),
    (0x10a40, 0x10a48), (0x10a60, 0x10a7e), (0x10a80, 0x10a9f), (0x10ac0, 0x10ac7),
    (0x10ac9, 0x10ae4), (0x10aeb, 0x10aef), (0x10b00, 0x10b35), (0x10b40, 0x10b55),
    (0x10b58, 0x10b72), (0x10b78, 0x10b91), (0x10ba9, 0x10baf), (0x10c00, 0x10c48),
    (0x10c80, 0x10cb2), (0x10cc0, 0x10cf2), (0x10cfa, 0x10d23), (0x10d30, 0x10d39),
    (0x10e60, 0x10e7e), (0x10e80, 0x10ea9), (0x10eb0, 0x10eb1), (0x10f00, 0x10f27),
    (0x10f30, 0x10f45), (0x10f51, 0x10f54), (0x10f70, 0x10f81), (0x10fb0, 0x10fcb),
    (0x10fe0, 0x10ff6), (0x11003, 0x11037), (0x11052, 0x1106f), (0x11071, 0x11072),
    (0x11075, 0x11075), (0x11083, 0x110af), (0x110d0, 0x110e8), (0x110f0, 0x110f9),
    (0x11103, 0x11126), (0x11136, 0x1113f), (0x11144, 0x11144), (0x11147, 0x11147),
    (0x11150, 0x11172), (0x11176, 0x11176), (0x11183, 0x111b2), (0x111c1, 0x111c4),
    (0x111d0, 0x111da), (0x111dc, 0x111dc), (0x111e1, 0x111f4), (0x11200, 0x11211),
    (0x11213, 0x1122b), (0x11280, 0x11286), (0x11288, 0x11288), (0x1128a, 0x1128d),
    (0x1128f, 0x1129d), (0x1129f, 0x112a8), (0x112b0, 0x112de), (0x112f0, 0x112f9),
    (0x11305, 0x1130c), (0x1130f, 0x11310), (0x11313, 0x11328), (0x1132a, 0x11330),
    (0x11332, 0x11333), (0x11335, 0x11339), (0x1133d, 0x1133d), (0x11350, 0x11350),
    (0x1135d, 0x11361), (0x11400, 0x11434), (0x11447, 0x1144a), (0x11450, 0x11459),
    (0x1145f, 0x11461), (0x11480, 0x114af), (0x114c4, 0x114c5), (0x114c7, 0x114c7),
    (0x114d0, 0x114d9), (0x11580, 0x115ae), (0x115d8, 0x115db), (0x11600, 0x1162f),
    (0x11644, 0x11644), (0x11650, 0x11659), (0x11680, 0x116aa), (0x116b8, 0x116b8),
    (0x116c0, 0x116c9), (0x11700, 0x1171a), (0x11730, 0x1173b), (0x11740, 0x11746),
    (0x11800, 0x1182b), (0x118a0, 0x118f2), (0x118ff, 0x11906), (0x11909, 0x11909),
    (0x1190c, 0x11913), (0x11915, 0x11916), (0x11918, 0x1192f), (0x1193f, 0x1193f),
    (0x11941, 0x11941), (0x11950, 0x11959), (0x119a0, 0x119a7), (0x119aa, 0x119d0),
    (0x119e1, 0x119e1), (0x119e3, 0x119e3), (0x11a00, 0x11a00), (0x11a0b, 0x11a32),
    (0x11a3a, 0x11a3a), (0x11a50, 0x11a50), (0x11a5c, 0x11a89), (0x11a9d, 0x11a9d),
    (0x11ab0, 0x11af8), (0x11c00, 0x11c08), (0x11c0a, 0x11c2e), (0x11c40, 0x11c40),
    (0x11c50, 0x11c6c), (0x11c72, 0x11c8f), (0x11d00, 0x11d06), (0x11d08, 0x11d09),
    (0x11d0b, 0x11d30), (0x11d46, 0x11d46), (0x11d50, 0x11d59), (0x11d60, 0x11d65),
    (0x11d67, 0x11d68), (0x11d6a, 0x11d89), (0x11d98, 0x11d98), (0x11da0, 0x11da9),
    (0x11ee0, 0x11ef2), (0x11fb0, 0x11fb0), (0x11fc0, 0x11fd4), (0x12000, 0x12399),
    (0x12400, 0x1246e), (0x12480, 0x12543), (0x12f90, 0x12ff0), (0x13000, 0x1342e),
    (0x14400, 0x14646), (0x16800, 0x16a38), (0x16a40, 0x16a5e), (0x16a60, 0x16a69),
    (0x16a70, 0x16abe), (0x16ac0, 0x16ac9), (0x16ad0, 0x16aed), (0x16b00, 0x16b2f),
    (0x16b40, 0x16b43), (0x16b50, 0x16b59), (0x16b5b, 0x16b61), (0x16b63, 0x16b77),
    (0x16b7d, 0x16b8f), (0x16e40, 0x16e96), (0x16f00, 0x16f4a), (0x16f50, 0x16f50),
    (0x16f93, 0x16f9f), (0x16fe0, 0x16fe1), (0x16fe3, 0x16fe3), (0x17000, 0x187f7),
    (0x18800, 0x18cd5), (0x18d00, 0x18d08), (0x1aff0, 0x1aff3), (0x1aff5, 0x1affb),
    (0x1affd, 0x1affe), (0x1b000, 0x1b122), (0x1b150, 0x1b152), (0x1b164, 0x1b167),
    (0x1b170, 0x1b2fb), (0x1bc00, 0x1bc6a), (0x1bc70, 0x1bc7c), (0x1bc80, 0x1bc88),
    (0x1bc90, 0x1bc99), (0x1d2e0, 0x1d2f3), (0x1d360, 0x1d378), (0x1d400, 0x1d454),
    (0x1d456, 0x1d49c), (0x1d49e, 0x1d49f), (0x1d4a2, 0x1d4a2), (0x1d4a5, 0x1d4a6),
    (0x1d4a9, 0x1d4ac), (0x1d4ae, 0x1d4b9), (0x1d4bb, 0x1d4bb), (0x1d4bd, 0x1d4c3),
    (0x1d4c5, 0x1d505), (0x1d507, 0x1d50a), (0x1d50d, 0x1d514), (0x1d516, 0x1d51c),
    (0x1d51e, 0x1d539), (0x1d53b, 0x1d53e), (0x1d540, 0x1d544), (0x1d546, 0x1d546),
    (0x1d54a, 0x1d550), (0x1d552, 0x1d6a5), (0x1d6a8, 0x1d6c0), (0x1d6c2, 0x1d6da),
    (0x1d6dc, 0x1d6fa), (0x1d6fc, 0x1d714), (0x1d716, 0x1d734), (0x1d736, 0x1d74e),
    (0x1d750, 0x1d76e), (0x1d770, 0x1d788), (0x1d78a, 0x1d7a8), (0x1d7aa, 0x1d7c2),
    (0x1d7c4, 0x1d7cb), (0x1d7ce, 0x1d7ff), (0x1df00, 0x1df1e), (0x1e100, 0x1e12c),
    (0x1e137, 0x1e13d), (0x1e140, 0x1e149), (0x1e14e, 0x1e14e), (0x1e290, 0x1e2ad),
    (0x1e2c0, 0x1e2eb), (0x1e2f0, 0x1e2f9), (0x1e7e0, 0x1e7e6), (0x1e7e8, 0x1e7eb),
    (0x1e7ed, 0x1e7ee), (0x1e7f0, 0x1e7fe), (0x1e800, 0x1e8c4), (0x1e8c7, 0x1e8cf),
    (0x1e900, 0x1e943), (0x1e94b, 0x1e94b), (0x1e950, 0x1e959), (0x1ec71, 0x1ecab),
    (0x1ecad, 0x1ecaf), (0x1ecb1, 0x1ecb4), (0x1ed01, 0x1ed2d), (0x1ed2f, 0x1ed3d),
    (0x1ee00, 0x1ee03), (0x1ee05, 0x1ee1f), (0x1ee21, 0x1ee22), (0x1ee24, 0x1ee24),
    (0x1ee27, 0x1ee27), (0x1ee29, 0x1ee32), (0x1ee34, 0x1ee37), (0x1ee39, 0x1ee39),
    (0x1ee3b, 0x1ee3b), (0x1ee42, 0x1ee42), (0x1ee47, 0x1ee47), (0x1ee49, 0x1ee49),
    (0x1ee4b, 0x1ee4b), (0x1ee4d, 0x1ee4f), (0x1ee51, 0x1ee52), (0x1ee54, 0x1ee54),
    (0x1ee57, 0x1ee57), (0x1ee59, 0x1ee59), (0x1ee5b, 0x1ee5b), (0x1ee5d, 0x1ee5d),
    (0x1ee5f, 0x1ee5f), (0x1ee61, 0x1ee62), (0x1ee64, 0x1ee64), (0x1ee67, 0x1ee6a),
    (0x1ee6c, 0x1ee72), (0x1ee74, 0x1ee77), (0x1ee79, 0x1ee7c), (0x1ee7e, 0x1ee7e),
    (0x1ee80, 0x1ee89), (0x1ee8b, 0x1ee9b), (0x1eea1, 0x1eea3), (0x1eea5, 0x1eea9),
    (0x1eeab, 0x1eebb), (0x1f100, 0x1f10c), (0x1fbf0, 0x1fbf9), (0x20000, 0x2a6df),
    (0x2a700, 0x2b738), (0x2b740, 0x2b81d), (0x2b820, 0x2cea1), (0x2ceb0, 0x2ebe0),
    (0x2f800, 0x2fa1d), (0x30000, 0x3134a) ]

/-- A word character of Python's regex engine (`\w`, and the classification
used by `\b`): ASCII letters, digits and underscore, plus the non-ASCII
Unicode word characters of `pyWordRanges`.  Python compiles `str` patterns
with Unicode semantics, so e.g. `'é'` is a word character. -/
def isPyWordChar (c : Char) : Bool :=
  isWordChar c || pyWordRanges.any (fun p => p.1 ≤ c.toNat && c.toNat ≤ p.2)

/-- Matcher for a single literal character (the rules `r' '`, `r'\n'`, `r'\r'`). -/
def singleCharMatch (ch : Char) : List Char → Option Nat
  | [] => none
  | c :: _ => if c = ch then some 1 else none

/-- Index of the first `'\n'` in a list, if any. -/
def idxOfNl : List Char → Option Nat
  | [] => none
  | c :: cs => if c = '\n' then some 0 else (idxOfNl cs).map (· + 1)

/-- The rule `r'//.*\n'`: two slashes, then `.*` (greedy, `.` excludes the
newline), then a literal newline.  Greedy `.*` stops exactly at the first
newline, which the tail then consumes, so the match — when a newline exists —
runs through the first newline; with no newline the rule fails. -/
def lineCommentMatch : List Char → Option Nat
  | c1 :: c2 :: rest =>
    if c1 = '/' ∧ c2 = '/' then (idxOfNl rest).map (· + 3) else none
  | _ => none

/-- Length of the leading run of characters satisfying `p`. -/
def leadingCount (p : Char → Bool) : List Char → Nat
  | [] => 0
  | c :: cs => if p c then leadingCount p cs + 1 else 0

/-- Leading run of `'*'`. -/
def leadingStars (s : List Char) : Nat := leadingCount (· = '*') s

/-- The tail `[*]+\)` of the block-comment regex: a greedy run of stars
followed by `')'`.  Backtracking inside `[*]+` is vacuous: every shorter run
is followed by another `'*' ≠ ')'`, so the only candidate is the maximal run. -/
def starTail (s : List Char) : Option Nat :=
  if leadingStars s = 0 then none
  else if s[leadingStars s]? = some ')' then some (leadingStars s + 1)
  else none

/-- One descending pass of the greedy backtracking search for
`([^*]|[*]+[^)])*[*]+\)` at a position whose character is `'*'`
(so the `[^*]` alternative is unavailable).  The loop argument `j + 1` is the
number of stars consumed by `[*]+` of the alternative `[*]+[^)]`; the star
count is tried from the maximal run downwards (greedy), the class `[^)]`
consumes `s.get? (j+1)`, and the continuation `rec` resumes the search after
the consumed characters.  At `j = 0` the star-iteration stops and the tail
`[*]+\)` is tried. -/
def starLoop (rec : List Char → Option Nat) : Nat → List Char → Option Nat
  | 0, s => starTail s
  | j + 1, s =>
    (if s[j + 1]? = none ∨ s[j + 1]? = some ')' then none
     else (rec (s.drop (j + 2))).map (· + (j + 2))).orElse
      (fun _ => starLoop rec j s)

/-- Fuelled greedy backtracking search for `([^*]|[*]+[^)])*[*]+\)` anchored at
`s`, returning the length of the first match in Python backtracking order.
On a non-star character only the `[^*]` alternative (then the rest of the
search) can succeed — `[*]+[^)]` and the tail `[*]+\)` both need a leading
star.  On a star, `starLoop` runs the `[*]+[^)]` alternatives then the tail.
Each recursive call consumes at least one character, so fuel `s.length`
suffices; fuel 0 is never reached with adequate fuel. -/
def blockBodyF : Nat → List Char → Option Nat
  | 0, _ => none
  | fuel + 1, s =>
    match s with
    | [] => none
    | c :: rest =>
      if c = '*' then starLoop (blockBodyF fuel) (leadingStars (c :: rest)) (c :: rest)
      else (blockBodyF fuel rest).map (· + 1)

/-- The rule `r'\([*]([^*]|[*]+[^)])*[*]+\)'`: the opening `(*` then the
backtracking search for the body and closing. -/
def blockCommentMatch : List Char → Option Nat
  | c1 :: c2 :: rest =>
    if c1 = '(' ∧ c2 = '*' then (blockBodyF (rest.length + 1) rest).map (· + 2)
    else none
  | _ => none

/-- Whether a list contains the close delimiter `*)` as a (two-character)
substring. -/
def hasClose : List Char → Bool
  | c1 :: c2 :: rest => (c1 = '*' && c2 = ')') || hasClose (c2 :: rest)
  | _ => false

/-- Word boundary of `\b` after a word character, at offset `n` of `s`:
holds at end of input or before a non-word character (in the Unicode-aware
sense of `isPyWordChar`). -/
def boundaryAt (s : List Char) (n : Nat) : Bool :=
  match s[n]? with
  | none => true
  | some c => !(isPyWordChar c)

/-- The rule `words(kws, suffix=r'\b')`: some keyword of `kws` is a literal
prefix of the input and is followed by a word boundary.  All keywords consist
of word characters, so at most one keyword can match with a boundary and the
order in which alternatives are tried does not matter; the matched length is
that keyword's length. -/
def wordsMatch (kws : List String) (s : List Char) : Option Nat :=
  (kws.find? (fun k => k.toList.isPrefixOf s && boundaryAt s k.toList.length)).map
    (fun k => k.toList.length)

/-- A `+`-quantified character class such as `r'[a-zA-Z_0-9]+'`: the maximal
leading run, failing on an empty run. -/
def charClassPlus (p : Char → Bool) (s : List Char) : Option Nat :=
  let n := leadingCount p s
  if n = 0 then none else some n

/-- The catch-all rule `r'.'`: exactly one character, except the newline
(Pygments compiles rules with `re.MULTILINE` only, not `re.DOTALL`). -/
def anyCharMatch : List Char → Option Nat
  | [] => none
  | c :: _ => if c = '\n' then none else some 1

/-- A rule list: matchers paired with the kind of token they emit. -/
abbrev Rules := List ((List Char → Option Nat) × Tok)

/-- First matching rule at the current position, with its token kind and the
length of its match. -/
def firstMatch : Rules → List Char → Option (Tok × Nat)
  | [], _ => none
  | (m, k) :: rs, s =>
    match m s with
    | some n => some (k, n)
    | none => firstMatch rs s

/-- `CustomLexer.tokens['root']`, in source order. -/
def CustomLexer.rules : Rules :=
  [ (singleCharMatch ' ', Tok.Text),
    (singleCharMatch '\n', Tok.Text),
    (singleCharMatch '\r', Tok.Text),
    (lineCommentMatch, Tok.Comment),
    (blockCommentMatch, Tok.Comment),
    (wordsMatch fstar_keywords, Tok.Keyword),
    (charClassPlus isWordChar, Tok.Text),
    (anyCharMatch, Tok.Text) ]

/-- `PulseLexer.tokens['root']`, in source order: the first six rules of the
base lexer, then the extension keyword rule, then the digit-free identifier
rule, then the catch-all. -/
def PulseLexer.rules : Rules :=
  [ (singleCharMatch ' ', Tok.Text),
    (singleCharMatch '\n', Tok.Text),
    (singleCharMatch '\r', Tok.Text),
    (lineCommentMatch, Tok.Comment),
    (blockCommentMatch, Tok.Comment),
    (wordsMatch fstar_keywords, Tok.Keyword),
    (wordsMatch pulse_keywords, Tok.Keyword),
    (charClassPlus isIdentNoDigit, Tok.Text),
    (anyCharMatch, Tok.Text) ]

/-- Fuelled tokenization loop, mirroring `RegexLexer.get_tokens_unprocessed`:
at each position try the rules in order and emit the first match, advancing
past it; if no rule matches, Pygments emits `'\n'` as `Text` and any other
character as `Error`, advancing one character.  Every rule of the two lexers
consumes at least one character on a match, so fuel `s.length` suffices and
the fuel-exhaustion branch (Python's analogue would be an infinite loop on a
zero-width match) is never reached. -/
def tokenizeF (rules : Rules) : Nat → List Char → List (Tok × List Char)
  | 0, _ => []
  | _ + 1, [] => []
  | fuel + 1, c :: rest =>
    match firstMatch rules (c :: rest) with
    | some (k, n) =>
      (k, (c :: rest).take n) :: tokenizeF rules fuel ((c :: rest).drop n)
    | none =>
      (if c = '\n' then (Tok.Text, ['\n']) else (Tok.Error, [c]))
        :: tokenizeF rules fuel rest

/-- Tokenization of a complete input by a rule list. -/
def tokenize (rules : Rules) (s : List Char) : List (Tok × List Char) :=
  tokenizeF rules s.length s

/-- The base (F*) lexer's token stream for an input. -/
def CustomLexer.get_tokens (s : List Char) : List (Tok × List Char) :=
  tokenize CustomLexer.rules s

/-- The extension (Pulse) lexer's token stream for an input. -/
def PulseLexer.get_tokens (s : List Char) : List (Tok × List Char) :=
  tokenize PulseLexer.rules s

/-- Concatenation of the text of every token, in order. -/
def tokensText (ts : List (Tok × List Char)) : List Char :=
  (ts.map Prod.snd).flatten

/-! Elementary bounds for the individual matchers

For every matcher `m` of the two rule lists: `m s = some n` implies
`1 ≤ n ∧ n ≤ s.length` (progress — no committed match is zero-width — and no
match runs past the end of the input). -/

theorem singleCharMatch_bound {ch : Char} {s : List Char} {n : Nat}
    (h : singleCharMatch ch s = some n) : 1 ≤ n ∧ n ≤ s.length := by
  cases s with
  | nil => simp [singleCharMatch] at h
  | cons c cs =>
    simp only [singleCharMatch] at h
    split at h
    · cases h; simp
    · cases h

theorem idxOfNl_lt {s : List Char} {k : Nat} (h : idxOfNl s = some k) :
    k < s.length := by
  induction s generalizing k with
  | nil => simp [idxOfNl] at h
  | cons c cs ih =>
    simp only [idxOfNl] at h
    split at h
    · cases h; simp
    · cases hx : idxOfNl cs with
      | none => rw [hx] at h; cases h
      | some k' =>
        rw [hx] at h
        cases h
        have := ih hx
        simp only [List.length_cons]
        omega

theorem lineCommentMatch_bound {s : List Char} {n : Nat}
    (h : lineCommentMatch s = some n) : 1 ≤ n ∧ n ≤ s.length := by
  match s with
  | [] => simp [lineCommentMatch] at h
  | [c] => simp [lineCommentMatch] at h
  | c1 :: c2 :: rest =>
    simp only [lineCommentMatch] at h
    split at h
    · cases hx : idxOfNl rest with
      | none => rw [hx] at h; cases h
      | some k =>
        rw [hx] at h
        cases h
        have := idxOfNl_lt hx
        simp only [List.length_cons]
        omega
    · cases h

theorem leadingCount_le (p : Char → Bool) (s : List Char) :
    leadingCount p s ≤ s.length := by
  induction s with
  | nil => simp [leadingCount]
  | cons c cs ih =>
    simp only [leadingCount, List.length_cons]
    split <;> omega

theorem charClassPlus_bound {p : Char → Bool} {s : List Char} {n : Nat}
    (h : charClassPlus p s = some n) : 1 ≤ n ∧ n ≤ s.length := by
  simp only [charClassPlus] at h
  split at h
  · cases h
  · cases h
    exact ⟨by omega, leadingCount_le p s⟩

theorem anyCharMatch_bound {s : List Char} {n : Nat}
    (h : anyCharMatch s = some n) : 1 ≤ n ∧ n ≤ s.length := by
  cases s with
  | nil => simp [anyCharMatch] at h
  | cons c cs =>
    simp only [anyCharMatch] at h
    split at h
    · cases h
    · cases h; simp

/-! Bounds for the block-comment backtracking search

`blockBodyF fuel s = some n` implies `2 ≤ n ∧ n ≤ s.length`, and the matched
text `s.take n` ends with the close delimiter `*)`. -/

theorem leadingCount_pos_head {p : Char → Bool} {c : Char} {cs : List Char}
    (h : p c = true) : leadingCount p (c :: cs) = leadingCount p cs + 1 := by
  simp [leadingCount, h]

theorem take_leadingCount_all (p : Char → Bool) (s : List Char) :
    ∀ c ∈ s.take (leadingCount p s), p c = true := by
  induction s with
  | nil => simp [leadingCount]
  | cons c cs ih =>
    simp only [leadingCount]
    split
    · intro x hx
      simp only [List.take_succ_cons] at hx
      rcases List.mem_cons.mp hx with h | h
      · subst h; assumption
      · exact ih x h
    · intro x hx
      simp at hx

theorem starTail_bound {s : List Char} {n : Nat} (h : starTail s = some n) :
    2 ≤ n ∧ n ≤ s.length ∧ ['*', ')'] <:+ s.take n := by
  simp only [starTail] at h
  split at h
  · cases h
  · rename_i hm
    split at h
    · rename_i hg
      cases h
      have hlt : leadingStars s < s.length := by
        by_contra hge
        rw [List.getElem?_eq_none (by omega)] at hg
        cases hg
      have htake : s.take (leadingStars s + 1) = s.take (leadingStars s) ++ [')'] := by
        rw [List.take_succ, hg]; rfl
      have hstars : s.take (leadingStars s) = List.replicate (leadingStars s) '*' := by
        have hall : ∀ x ∈ s.take (leadingStars s), x = '*' := by
          intro x hx
          simpa using take_leadingCount_all (· = '*') s x hx
        have hlen : (s.take (leadingStars s)).length = leadingStars s := by
          simp only [List.length_take]
          omega
        rw [List.eq_replicate_of_mem hall, hlen]
      refine ⟨by omega, by omega, ?_⟩
      rw [htake, hstars]
      have hm1 : leadingStars s = (leadingStars s - 1) + 1 := by omega
      rw [hm1, List.replicate_succ']
      exact ⟨List.replicate (leadingStars s - 1) '*', by simp⟩
    · cases h

theorem starLoop_bound {rec : List Char → Option Nat}
    (hrec : ∀ t m, rec t = some m → 2 ≤ m ∧ m ≤ t.length ∧ ['*', ')'] <:+ t.take m) :
    ∀ j s n, starLoop rec j s = some n →
      2 ≤ n ∧ n ≤ s.length ∧ ['*', ')'] <:+ s.take n := by
  intro j
  induction j with
  | zero => exact fun s n h => starTail_bound h
  | succ j ih =>
    intro s n h
    simp only [starLoop] at h
    by_cases hcond : s[j + 1]? = none ∨ s[j + 1]? = some ')'
    · rw [if_pos hcond] at h
      simp only [Option.orElse] at h
      exact ih s n h
    · rw [if_neg hcond] at h
      push_neg at hcond
      obtain ⟨hne, _⟩ := hcond
      cases hr : rec (s.drop (j + 2)) with
      | none =>
        rw [hr] at h
        simp only [Option.map_none', Option.orElse] at h
        exact ih s n h
      | some m =>
        rw [hr] at h
        simp only [Option.map_some', Option.orElse] at h
        cases h
        obtain ⟨hm2, hmle, hsuf⟩ := hrec _ _ hr
        have hlen : (s.drop (j + 2)).length = s.length - (j + 2) := by simp
        have hjlt : j + 1 < s.length := by
          by_contra hge
          exact hne (List.getElem?_eq_none (by omega))
        refine ⟨by omega, by omega, ?_⟩
        have htake : s.take (m + (j + 2)) = s.take (j + 2) ++ (s.drop (j + 2)).take m := by
          rw [Nat.add_comm m (j + 2), List.take_add]
        rw [htake]
        obtain ⟨t, ht⟩ := hsuf
        exact ⟨s.take (j + 2) ++ t, by rw [List.append_assoc, ht]⟩

theorem blockBodyF_bound :
    ∀ fuel s n, blockBodyF fuel s = some n →
      2 ≤ n ∧ n ≤ s.length ∧ ['*', ')'] <:+ s.take n := by
  intro fuel
  induction fuel with
  | zero => intro s n h; simp [blockBodyF] at h
  | succ fuel ih =>
    intro s n h
    cases s with
    | nil => simp [blockBodyF] at h
    | cons c rest =>
      simp only [blockBodyF] at h
      split at h
      · exact starLoop_bound (fun t m hm => ih t m hm) _ _ _ h
      · cases hr : blockBodyF fuel rest with
        | none => rw [hr] at h; cases h
        | some m =>
          rw [hr] at h
          simp only [Option.map_some'] at h
          cases h
          obtain ⟨hm2, hmle, hsuf⟩ := ih rest m hr
          refine ⟨by omega, by simp only [List.length_cons]; omega, ?_⟩
          rw [List.take_succ_cons]
          obtain ⟨t, ht⟩ := hsuf
          exact ⟨c :: t, by rw [List.cons_append, ht]⟩

theorem blockCommentMatch_bound {s : List Char} {n : Nat}
    (h : blockCommentMatch s = some n) :
    4 ≤ n ∧ n ≤ s.length ∧ ['(', '*'] <+: s.take n ∧ ['*', ')'] <:+ s.take n := by
  match s with
  | [] => simp [blockCommentMatch] at h
  | [c] => simp [blockCommentMatch] at h
  | c1 :: c2 :: rest =>
    simp only [blockCommentMatch] at h
    split at h
    · rename_i hco
      obtain ⟨h1, h2⟩ := hco
      subst h1; subst h2
      cases hr : blockBodyF (rest.length + 1) rest with
      | none => rw [hr] at h; cases h
      | some m =>
        rw [hr] at h
        simp only [Option.map_some'] at h
        cases h
        obtain ⟨hm2, hmle, hsuf⟩ := blockBodyF_bound _ _ _ hr
        have htake : ('(' :: '*' :: rest).take (m + 2) = '(' :: '*' :: rest.take m := by
          show ('(' :: '*' :: rest).take (m + 1 + 1) = _
          rw [List.take_succ_cons, List.take_succ_cons]
        refine ⟨by omega, by simp only [List.length_cons]; omega, ?_, ?_⟩
        · rw [htake]
          exact ⟨rest.take m, rfl⟩
        · rw [htake]
          obtain ⟨t, ht⟩ := hsuf
          exact ⟨'(' :: '*' :: t, by rw [List.cons_append, List.cons_append, ht]⟩
    · cases h

theorem blockCommentMatch_bound' {s : List Char} {n : Nat}
    (h : blockCommentMatch s = some n) : 1 ≤ n ∧ n ≤ s.length :=
  ⟨by have := (blockCommentMatch_bound h).1; omega, (blockCommentMatch_bound h).2.1⟩

/-! Keyword tables: well-formedness and the keyword matcher -/

/-- Every keyword of the table is non-empty and made of word characters only
(this is what makes the `\b`-anchored whole-word match unique). -/
abbrev goodKws (kws : List String) : Prop :=
  ∀ k ∈ kws, k.toList ≠ [] ∧ ∀ c ∈ k.toList, isWordChar c = true

theorem fstar_keywords_good : goodKws fstar_keywords := by decide

theorem pulse_keywords_good : goodKws pulse_keywords := by decide

theorem wordsMatch_bound {kws : List String} (hg : goodKws kws)
    {s : List Char} {n : Nat}
    (h : wordsMatch kws s = some n) : 1 ≤ n ∧ n ≤ s.length := by
  simp only [wordsMatch] at h
  cases hf : kws.find? (fun k => k.toList.isPrefixOf s && boundaryAt s k.toList.length) with
  | none => rw [hf] at h; cases h
  | some K =>
    rw [hf] at h
    simp only [Option.map_some'] at h
    cases h
    have hmem := List.mem_of_find?_eq_some hf
    have hp := List.find?_some hf
    simp only [Bool.and_eq_true] at hp
    have hpre : K.toList <+: s := by
      rw [← List.isPrefixOf_iff_prefix]
      exact hp.1
    refine ⟨?_, hpre.length_le⟩
    have hne := (hg K hmem).1
    exact List.length_pos.mpr hne

/-! The rule dispatch -/

theorem firstMatch_bound {rules : Rules}
    (hb : ∀ p ∈ rules, ∀ s n, p.1 s = some n → 1 ≤ n ∧ n ≤ s.length) :
    ∀ {s : List Char} {k : Tok} {n : Nat},
      firstMatch rules s = some (k, n) → 1 ≤ n ∧ n ≤ s.length := by
  induction rules with
  | nil => intro s k n h; simp [firstMatch] at h
  | cons p rs ih =>
    intro s k n h
    obtain ⟨m, k'⟩ := p
    simp only [firstMatch] at h
    cases hm : m s with
    | some n' =>
      rw [hm] at h
      rw [Option.some.injEq, Prod.mk.injEq] at h
      obtain ⟨rfl, rfl⟩ := h
      exact hb _ (List.mem_cons_self _ _) s _ hm
    | none =>
      rw [hm] at h
      exact ih (fun q hq => hb q (List.mem_cons_of_mem _ hq)) h

theorem firstMatch_eq_none {rules : Rules} {s : List Char}
    (h : firstMatch rules s = none) : ∀ p ∈ rules, p.1 s = none := by
  induction rules with
  | nil => simp
  | cons p rs ih =>
    obtain ⟨m, k⟩ := p
    simp only [firstMatch] at h
    cases hm : m s with
    | some n => rw [hm] at h; cases h
    | none =>
      rw [hm] at h
      intro q hq
      rcases List.mem_cons.mp hq with rfl | hq'
      · exact hm
      · exact ih h q hq'

theorem firstMatch_kind_mem {rules : Rules} {s : List Char} {k : Tok} {n : Nat}
    (h : firstMatch rules s = some (k, n)) : k ∈ rules.map Prod.snd := by
  induction rules with
  | nil => simp [firstMatch] at h
  | cons p rs ih =>
    obtain ⟨m, k'⟩ := p
    simp only [firstMatch] at h
    cases hm : m s with
    | some n' =>
      rw [hm] at h
      rw [Option.some.injEq, Prod.mk.injEq] at h
      obtain ⟨rfl, rfl⟩ := h
      simp only [List.map_cons]
      exact List.mem_cons_self _ _
    | none =>
      rw [hm] at h
      simp only [List.map_cons, List.mem_cons]
      exact Or.inr (ih h)

theorem customRules_bound :
    ∀ p ∈ CustomLexer.rules, ∀ s n, p.1 s = some n → 1 ≤ n ∧ n ≤ s.length := by
  intro p hp
  simp only [CustomLexer.rules, List.mem_cons, List.not_mem_nil, or_false] at hp
  rcases hp with h|h|h|h|h|h|h|h <;> subst h <;> intro s n hn
  · exact singleCharMatch_bound hn
  · exact singleCharMatch_bound hn
  · exact singleCharMatch_bound hn
  · exact lineCommentMatch_bound hn
  · exact blockCommentMatch_bound' hn
  · exact wordsMatch_bound fstar_keywords_good hn
  · exact charClassPlus_bound hn
  · exact anyCharMatch_bound hn

theorem pulseRules_bound :
    ∀ p ∈ PulseLexer.rules, ∀ s n, p.1 s = some n → 1 ≤ n ∧ n ≤ s.length := by
  intro p hp
  simp only [PulseLexer.rules, List.mem_cons, List.not_mem_nil, or_false] at hp
  rcases hp with h|h|h|h|h|h|h|h|h <;> subst h <;> intro s n hn
  · exact singleCharMatch_bound hn
  · exact singleCharMatch_bound hn
  · exact singleCharMatch_bound hn
  · exact lineCommentMatch_bound hn
  · exact blockCommentMatch_bound' hn
  · exact wordsMatch_bound fstar_keywords_good hn
  · exact wordsMatch_bound pulse_keywords_good hn
  · exact charClassPlus_bound hn
  · exact anyCharMatch_bound hn

theorem customFirstMatch_bound {s : List Char} {k : Tok} {n : Nat}
    (h : firstMatch CustomLexer.rules s = some (k, n)) : 1 ≤ n ∧ n ≤ s.length :=
  FStarPygments.firstMatch_bound customRules_bound h

theorem pulseFirstMatch_bound {s : List Char} {k : Tok} {n : Nat}
    (h : firstMatch PulseLexer.rules s = some (k, n)) : 1 ≤ n ∧ n ≤ s.length :=
  FStarPygments.firstMatch_bound pulseRules_bound h

/-- On a non-empty input, some rule of the base lexer always matches: a
newline is matched by the second rule and anything else by the catch-all. -/
theorem customFirstMatch_ne_none (c : Char) (rest : List Char) :
    firstMatch CustomLexer.rules (c :: rest) ≠ none := by
  intro hfm
  have hall := firstMatch_eq_none hfm
  have h2 := hall (singleCharMatch '\n', Tok.Text)
    (by repeat first | exact List.mem_cons_self _ _ | apply List.mem_cons_of_mem)
  have h8 := hall (anyCharMatch, Tok.Text)
    (by repeat first | exact List.mem_cons_self _ _ | apply List.mem_cons_of_mem)
  simp only [singleCharMatch, anyCharMatch] at h2 h8
  by_cases hc : c = '\n'
  · rw [if_pos hc] at h2; cases h2
  · rw [if_neg hc] at h8; cases h8

/-- On a non-empty input, some rule of the extension lexer always matches. -/
theorem pulseFirstMatch_ne_none (c : Char) (rest : List Char) :
    firstMatch PulseLexer.rules (c :: rest) ≠ none := by
  intro hfm
  have hall := firstMatch_eq_none hfm
  have h2 := hall (singleCharMatch '\n', Tok.Text)
    (by repeat first | exact List.mem_cons_self _ _ | apply List.mem_cons_of_mem)
  have h9 := hall (anyCharMatch, Tok.Text)
    (by repeat first | exact List.mem_cons_self _ _ | apply List.mem_cons_of_mem)
  simp only [singleCharMatch, anyCharMatch] at h2 h9
  by_cases hc : c = '\n'
  · rw [if_pos hc] at h2; cases h2
  · rw [if_neg hc] at h9; cases h9

/-! The tokenization loop -/

theorem tokensText_cons (k : Tok) (t : List Char) (ts : List (Tok × List Char)) :
    tokensText ((k, t) :: ts) = t ++ tokensText ts := by
  simp [tokensText]

/-- With sufficient fuel the loop result does not depend on the fuel:
every committed match consumes at least one character. -/
theorem tokenizeF_fuel {rules : Rules}
    (hb : ∀ {s : List Char} {k : Tok} {n : Nat},
      firstMatch rules s = some (k, n) → 1 ≤ n ∧ n ≤ s.length) :
    ∀ f g s, s.length ≤ f → s.length ≤ g →
      tokenizeF rules f s = tokenizeF rules g s := by
  intro f
  induction f with
  | zero =>
    intro g s hf _
    have hs : s = [] := List.length_eq_zero.mp (by omega)
    subst hs
    cases g <;> simp [tokenizeF]
  | succ f ih =>
    intro g s hf hg
    cases s with
    | nil => cases g <;> simp [tokenizeF]
    | cons c rest =>
      cases g with
      | zero => simp at hg
      | succ g =>
        cases hfm : firstMatch rules (c :: rest) with
        | some kn =>
          obtain ⟨k, n⟩ := kn
          obtain ⟨h1, h2⟩ := hb hfm
          simp only [tokenizeF, hfm]
          have hle : ((c :: rest).drop n).length ≤ f ∧ ((c :: rest).drop n).length ≤ g := by
            simp only [List.length_drop, List.length_cons]
            simp only [List.length_cons] at hf hg h2
            omega
          rw [ih g _ hle.1 hle.2]
        | none =>
          simp only [tokenizeF, hfm]
          rw [ih g rest
            (by simp only [List.length_cons] at hf; omega)
            (by simp only [List.length_cons] at hg; omega)]

/-- Unfolding step of `tokenize` at a matched rule. -/
theorem tokenize_cons {rules : Rules}
    (hb : ∀ {s : List Char} {k : Tok} {n : Nat},
      firstMatch rules s = some (k, n) → 1 ≤ n ∧ n ≤ s.length)
    {s : List Char} {k : Tok} {n : Nat}
    (h : firstMatch rules s = some (k, n)) :
    tokenize rules s = (k, s.take n) :: tokenize rules (s.drop n) := by
  obtain ⟨h1, h2⟩ := hb h
  cases s with
  | nil => simp at h2; omega
  | cons c rest =>
    simp only [tokenize, List.length_cons, tokenizeF, h]
    congr 1
    apply tokenizeF_fuel hb
    · simp only [List.length_drop, List.length_cons]
      simp only [List.length_cons] at h2
      omega
    · exact Nat.le_refl _

/-- Round-trip: the concatenated token texts rebuild the input. -/
theorem tokenizeF_text {rules : Rules}
    (hb : ∀ {s : List Char} {k : Tok} {n : Nat},
      firstMatch rules s = some (k, n) → 1 ≤ n ∧ n ≤ s.length) :
    ∀ fuel s, s.length ≤ fuel → tokensText (tokenizeF rules fuel s) = s := by
  intro fuel
  induction fuel with
  | zero =>
    intro s hs
    have : s = [] := List.length_eq_zero.mp (by omega)
    subst this
    simp [tokenizeF, tokensText]
  | succ fuel ih =>
    intro s hs
    cases s with
    | nil => simp [tokenizeF, tokensText]
    | cons c rest =>
      cases hfm : firstMatch rules (c :: rest) with
      | some kn =>
        obtain ⟨k, n⟩ := kn
        obtain ⟨h1, h2⟩ := hb hfm
        simp only [tokenizeF, hfm]
        rw [tokensText_cons, ih _ (by
          simp only [List.length_drop, List.length_cons]
          simp only [List.length_cons] at hs h2
          omega)]
        exact List.take_append_drop n (c :: rest)
      | none =>
        have hrest : tokensText (tokenizeF rules fuel rest) = rest :=
          ih rest (by simp only [List.length_cons] at hs; omega)
        simp only [tokenizeF, hfm]
        split
        · rename_i hc
          rw [tokensText_cons, hrest, hc]
          rfl
        · rw [tokensText_cons, hrest]
          rfl

/-- Each emitted token comes from at least one committed rule application, so
the number of tokens is at most the number of characters. -/
theorem tokenizeF_count {rules : Rules}
    (hb : ∀ {s : List Char} {k : Tok} {n : Nat},
      firstMatch rules s = some (k, n) → 1 ≤ n ∧ n ≤ s.length) :
    ∀ fuel s, (tokenizeF rules fuel s).length ≤ s.length := by
  intro fuel
  induction fuel with
  | zero => intro s; simp [tokenizeF]
  | succ fuel ih =>
    intro s
    cases s with
    | nil => simp [tokenizeF]
    | cons c rest =>
      cases hfm : firstMatch rules (c :: rest) with
      | some kn =>
        obtain ⟨k, n⟩ := kn
        obtain ⟨h1, h2⟩ := hb hfm
        have := ih ((c :: rest).drop n)
        simp only [tokenizeF, hfm]
        simp only [List.length_cons, List.length_drop] at *
        omega
      | none =>
        have := ih rest
        simp only [tokenizeF, hfm]
        split <;> (simp only [List.length_cons]; omega)

/-- When some rule always matches, every emitted token kind is the kind of
some rule (the `Error` fallback is dead). -/
theorem tokenizeF_kind {rules : Rules}
    (hex : ∀ c rest, firstMatch rules (c :: rest) ≠ none) :
    ∀ fuel s p, p ∈ tokenizeF rules fuel s → p.1 ∈ rules.map Prod.snd := by
  intro fuel
  induction fuel with
  | zero => intro s p hp; simp [tokenizeF] at hp
  | succ fuel ih =>
    intro s p hp
    cases s with
    | nil => simp [tokenizeF] at hp
    | cons c rest =>
      cases hfm : firstMatch rules (c :: rest) with
      | some kn =>
        obtain ⟨k, n⟩ := kn
        simp only [tokenizeF, hfm] at hp
        rcases List.mem_cons.mp hp with rfl | hp'
        · exact firstMatch_kind_mem hfm
        · exact ih _ p hp'
      | none => exact absurd hfm (hex c rest)

/-! The keyword matcher: characterization, completeness, uniqueness -/

theorem isPrefixOf_eq_true_iff {l1 l2 : List Char} :
    l1.isPrefixOf l2 = true ↔ l1 <+: l2 := List.isPrefixOf_iff_prefix

theorem string_eq_of_toList_eq {a b : String} (h : a.toList = b.toList) : a = b := by
  cases a; cases b
  exact congrArg String.mk (by simpa [String.toList] using h)

/-- ASCII word characters are Python word characters. -/
theorem isPyWordChar_of_isWordChar {c : Char} (h : isWordChar c = true) :
    isPyWordChar c = true := by
  simp [isPyWordChar, h]

theorem boundaryAt_some {s : List Char} {n : Nat} {c : Char} (h : s[n]? = some c) :
    boundaryAt s n = !(isPyWordChar c) := by
  simp [boundaryAt, h]

theorem boundaryAt_append (K t : List Char) :
    boundaryAt (K ++ t) K.length = boundaryAt t 0 := by
  simp only [boundaryAt]
  rw [List.getElem?_append_right (Nat.le_refl _)]
  simp

theorem boundaryAt_cons_zero (c : Char) (t : List Char) :
    boundaryAt (c :: t) 0 = !(isPyWordChar c) := by
  simp [boundaryAt]

/-- At the end of the input `\b` always holds (after a word character). -/
theorem boundaryAt_end (l : List Char) : boundaryAt l l.length = true := by
  have h : l[l.length]? = none := List.getElem?_eq_none (Nat.le_refl _)
  simp [boundaryAt, h]

/-- A non-empty list of characters, split off its head. -/
theorem exists_cons_of_ne_nil {l : List Char} (h : l ≠ []) :
    ∃ d t, l = d :: t := by
  cases hx : l with
  | nil => exact absurd hx h
  | cons d t => exact ⟨d, t, rfl⟩

theorem wordsMatch_some_spec {kws : List String} {s : List Char} {n : Nat}
    (h : wordsMatch kws s = some n) :
    ∃ K, K ∈ kws ∧ K.toList <+: s ∧ boundaryAt s K.toList.length = true
      ∧ n = K.toList.length := by
  simp only [wordsMatch] at h
  cases hf : kws.find? (fun k => k.toList.isPrefixOf s && boundaryAt s k.toList.length) with
  | none => rw [hf] at h; cases h
  | some K =>
    rw [hf] at h
    simp only [Option.map_some'] at h
    have hp := List.find?_some hf
    simp only [Bool.and_eq_true] at hp
    exact ⟨K, List.mem_of_find?_eq_some hf, isPrefixOf_eq_true_iff.mp hp.1, hp.2,
      (Option.some.inj h).symm⟩

theorem wordsMatch_complete {kws : List String} {K : String} (hK : K ∈ kws)
    {s : List Char} (hpre : K.toList <+: s)
    (hb : boundaryAt s K.toList.length = true) :
    wordsMatch kws s ≠ none := by
  simp only [wordsMatch]
  intro h
  have hfind := Option.map_eq_none'.mp h
  have hnp := List.find?_eq_none.mp hfind K hK
  simp only [Bool.and_eq_true, not_and] at hnp
  exact absurd hb (hnp (isPrefixOf_eq_true_iff.mpr hpre))

/-- A keyword longer than `n` that is a prefix of `s` forces a word character
at offset `n`, contradicting a word boundary there. -/
theorem prefix_boundary_len_absurd {K : String}
    (hword : ∀ c ∈ K.toList, isPyWordChar c = true)
    {s : List Char} {n : Nat} (hb : boundaryAt s n = true)
    (hpre : K.toList <+: s) (hlt : n < K.toList.length) : False := by
  obtain ⟨r, rfl⟩ := hpre
  have hg1 : (K.toList ++ r)[n]? = K.toList[n]? := List.getElem?_append_left hlt
  have hg2 : K.toList[n]? = some (K.toList[n]) := List.getElem?_eq_getElem hlt
  have hcw := hword _ (List.getElem_mem hlt)
  rw [boundaryAt_some (show (K.toList ++ r)[n]? = some _ by rw [hg1, hg2]), hcw] at hb
  simp at hb

/-- At any position at most one keyword of a well-formed table matches with a
word boundary: the alternation order inside `words(...)` is irrelevant. -/
theorem keyword_match_unique {kws : List String} (hg : goodKws kws)
    {K K' : String} (hK : K ∈ kws) (hK' : K' ∈ kws) {s : List Char}
    (hpre : K.toList <+: s) (hb : boundaryAt s K.toList.length = true)
    (hpre' : K'.toList <+: s) (hb' : boundaryAt s K'.toList.length = true) :
    K = K' := by
  rcases Nat.lt_trichotomy K.toList.length K'.toList.length with hlt | heq | hgt
  · exact (prefix_boundary_len_absurd
      (fun x hx => isPyWordChar_of_isWordChar ((hg K' hK').2 x hx)) hb hpre' hlt).elim
  · have h1 : K.toList <+: K'.toList :=
      List.prefix_of_prefix_length_le hpre hpre' (le_of_eq heq)
    exact string_eq_of_toList_eq (List.IsPrefix.eq_of_length h1 heq)
  · exact (prefix_boundary_len_absurd
      (fun x hx => isPyWordChar_of_isWordChar ((hg K hK).2 x hx)) hb' hpre hgt).elim

/-- A keyword of the table placed at the start of the input and followed by a
word boundary is matched, with its own length. -/
theorem wordsMatch_keyword {kws : List String} (hg : goodKws kws) {K : String}
    (hK : K ∈ kws) {t : List Char}
    (hb : boundaryAt (K.toList ++ t) K.toList.length = true) :
    wordsMatch kws (K.toList ++ t) = some K.toList.length := by
  have hpre : K.toList <+: K.toList ++ t := List.prefix_append _ _
  cases hw : wordsMatch kws (K.toList ++ t) with
  | none => exact absurd hw (wordsMatch_complete hK hpre hb)
  | some n =>
    obtain ⟨K', hK', hpre', hb', rfl⟩ := wordsMatch_some_spec hw
    rw [keyword_match_unique hg hK hK' hpre hb hpre' hb']

/-- A word placed at the start of the input with a boundary after it, but not
belonging to the table, rules out every keyword of the table. -/
theorem wordsMatch_notmem_none {kws : List String} (hg : goodKws kws)
    {K : String} (hKword : ∀ c ∈ K.toList, isPyWordChar c = true)
    (hnotin : K ∉ kws) {t : List Char}
    (hb : boundaryAt (K.toList ++ t) K.toList.length = true) :
    wordsMatch kws (K.toList ++ t) = none := by
  cases hw : wordsMatch kws (K.toList ++ t) with
  | none => rfl
  | some n =>
    exfalso
    obtain ⟨K', hK', hpre', hb', rfl⟩ := wordsMatch_some_spec hw
    rcases Nat.lt_trichotomy K'.toList.length K.toList.length with hlt | heq | hgt
    · exact prefix_boundary_len_absurd hKword hb' (List.prefix_append _ _) hlt
    · have h1 : K'.toList <+: K.toList :=
        List.prefix_of_prefix_length_le hpre' (List.prefix_append _ _) (le_of_eq heq)
      have hKK : K' = K := string_eq_of_toList_eq (List.IsPrefix.eq_of_length h1 heq)
      subst hKK
      exact hnotin hK'
    · exact prefix_boundary_len_absurd
        (fun x hx => isPyWordChar_of_isWordChar ((hg K' hK').2 x hx)) hb hpre' hgt

/-- No keyword matches at a non-word character. -/
theorem wordsMatch_nonword_head {kws : List String} (hg : goodKws kws)
    {c : Char} (hc : isPyWordChar c = false) (rest : List Char) :
    wordsMatch kws (c :: rest) = none := by
  cases hw : wordsMatch kws (c :: rest) with
  | none => rfl
  | some n =>
    exfalso
    obtain ⟨K, hK, hpre, _, _⟩ := wordsMatch_some_spec hw
    obtain ⟨hne, hword⟩ := hg K hK
    cases hKl : K.toList with
    | nil => exact hne hKl
    | cons d l =>
      rw [hKl] at hpre
      obtain ⟨r, hr⟩ := hpre
      rw [List.cons_append] at hr
      injection hr with hd _
      have hdw := isPyWordChar_of_isWordChar
        (hword d (by rw [hKl]; exact List.mem_cons_self _ _))
      rw [hd, hc] at hdw
      cases hdw

/-! Identifier classes and first-match shape on a word-character head -/

theorem charClassPlus_pos {p : Char → Bool} {c0 : Char} (rest : List Char)
    (h : p c0 = true) :
    charClassPlus p (c0 :: rest) = some (leadingCount p (c0 :: rest)) := by
  simp [charClassPlus, leadingCount_pos_head h]

theorem charClassPlus_neg {p : Char → Bool} {c0 : Char} (rest : List Char)
    (h : p c0 = false) : charClassPlus p (c0 :: rest) = none := by
  simp [charClassPlus, leadingCount, h]

theorem isWordChar_of_isIdentNoDigit {c : Char} (h : isIdentNoDigit c = true) :
    isWordChar c = true := by
  simp only [isIdentNoDigit, Bool.or_eq_true] at h
  simp only [isWordChar, Char.isAlphanum, Bool.or_eq_true]
  rcases h with h | h
  · exact Or.inl (Or.inl h)
  · exact Or.inr h

theorem isIdentNoDigit_eq_false {c : Char} (hc : isWordChar c = false) :
    isIdentNoDigit c = false := by
  cases h : isIdentNoDigit c
  · rfl
  · rw [isWordChar_of_isIdentNoDigit h] at hc; cases hc

theorem wordChar_ne {c0 : Char} (hw : isWordChar c0 = true) {d : Char}
    (hd : isWordChar d = false) : c0 ≠ d := by
  intro h
  rw [h, hd] at hw
  cases hw

theorem singleCharMatch_ne {ch c0 : Char} (h : c0 ≠ ch) (rest : List Char) :
    singleCharMatch ch (c0 :: rest) = none := by
  simp [singleCharMatch, h]

theorem lineCommentMatch_ne {c0 : Char} (h : c0 ≠ '/') (rest : List Char) :
    lineCommentMatch (c0 :: rest) = none := by
  cases rest with
  | nil => rfl
  | cons c2 r =>
    simp only [lineCommentMatch]
    rw [if_neg (fun hco => h hco.1)]

theorem blockCommentMatch_ne {c0 : Char} (h : c0 ≠ '(') (rest : List Char) :
    blockCommentMatch (c0 :: rest) = none := by
  cases rest with
  | nil => rfl
  | cons c2 r =>
    simp only [blockCommentMatch]
    rw [if_neg (fun hco => h hco.1)]

/-- Shape of the base lexer's dispatch at a word character: only the keyword
rule and (failing that) the identifier rule can fire. -/
theorem customFirstMatch_wordhead {c0 : Char} (rest : List Char)
    (hw : isWordChar c0 = true) :
    firstMatch CustomLexer.rules (c0 :: rest)
      = match wordsMatch fstar_keywords (c0 :: rest) with
        | some n => some (Tok.Keyword, n)
        | none => some (Tok.Text, leadingCount isWordChar (c0 :: rest)) := by
  have e1 : singleCharMatch ' ' (c0 :: rest) = none :=
    singleCharMatch_ne (wordChar_ne hw (by decide)) rest
  have e2 : singleCharMatch '\n' (c0 :: rest) = none :=
    singleCharMatch_ne (wordChar_ne hw (by decide)) rest
  have e3 : singleCharMatch '\r' (c0 :: rest) = none :=
    singleCharMatch_ne (wordChar_ne hw (by decide)) rest
  have e4 : lineCommentMatch (c0 :: rest) = none :=
    lineCommentMatch_ne (wordChar_ne hw (by decide)) rest
  have e5 : blockCommentMatch (c0 :: rest) = none :=
    blockCommentMatch_ne (wordChar_ne hw (by decide)) rest
  simp only [CustomLexer.rules, firstMatch, e1, e2, e3, e4, e5]
  cases hkw : wordsMatch fstar_keywords (c0 :: rest) with
  | some n => rfl
  | none => rw [charClassPlus_pos rest hw]

/-- Shape of the extension lexer's dispatch at a word character. -/
theorem pulseFirstMatch_wordhead {c0 : Char} (rest : List Char)
    (hw : isWordChar c0 = true) :
    firstMatch PulseLexer.rules (c0 :: rest)
      = match wordsMatch fstar_keywords (c0 :: rest) with
        | some n => some (Tok.Keyword, n)
        | none =>
          match wordsMatch pulse_keywords (c0 :: rest) with
          | some n => some (Tok.Keyword, n)
          | none =>
            if isIdentNoDigit c0 = true then
              some (Tok.Text, leadingCount isIdentNoDigit (c0 :: rest))
            else some (Tok.Text, 1) := by
  have e1 : singleCharMatch ' ' (c0 :: rest) = none :=
    singleCharMatch_ne (wordChar_ne hw (by decide)) rest
  have e2 : singleCharMatch '\n' (c0 :: rest) = none :=
    singleCharMatch_ne (wordChar_ne hw (by decide)) rest
  have e3 : singleCharMatch '\r' (c0 :: rest) = none :=
    singleCharMatch_ne (wordChar_ne hw (by decide)) rest
  have e4 : lineCommentMatch (c0 :: rest) = none :=
    lineCommentMatch_ne (wordChar_ne hw (by decide)) rest
  have e5 : blockCommentMatch (c0 :: rest) = none :=
    blockCommentMatch_ne (wordChar_ne hw (by decide)) rest
  simp only [PulseLexer.rules, firstMatch, e1, e2, e3, e4, e5]
  cases hkw : wordsMatch fstar_keywords (c0 :: rest) with
  | some n => rfl
  | none =>
    cases hkw2 : wordsMatch pulse_keywords (c0 :: rest) with
    | some n => rfl
    | none =>
      by_cases hid : isIdentNoDigit c0 = true
      · rw [charClassPlus_pos rest hid, if_pos hid]
      · have hid2 : isIdentNoDigit c0 = false := by
          cases h : isIdentNoDigit c0
          · rfl
          · exact absurd h hid
        have e9 : anyCharMatch (c0 :: rest) = some 1 := by
          simp [anyCharMatch, wordChar_ne hw (show isWordChar '\n' = false by decide)]
        rw [charClassPlus_neg rest hid2, if_neg hid, e9]

/-! Keyword tokens at the head of the input -/

theorem take_len_of_pref {l s : List Char} (h : l <+: s) : s.take l.length = l := by
  obtain ⟨r, rfl⟩ := h
  exact List.take_left _ _

/-- A base keyword at the head of the input, followed by a word boundary, is
emitted as one Keyword token with exactly its own text. -/
theorem customKeyword_token {K : String} (hK : K ∈ fstar_keywords)
    {t : List Char} (hb : boundaryAt (K.toList ++ t) K.toList.length = true) :
    CustomLexer.get_tokens (K.toList ++ t)
      = (Tok.Keyword, K.toList) :: CustomLexer.get_tokens t := by
  have hkw := wordsMatch_keyword fstar_keywords_good hK hb
  obtain ⟨hne, hwchars⟩ := fstar_keywords_good K hK
  obtain ⟨c0, Krest, hKl⟩ := exists_cons_of_ne_nil hne
  have h0 : isWordChar c0 = true :=
    hwchars c0 (by rw [hKl]; exact List.mem_cons_self _ _)
  have hwh := customFirstMatch_wordhead (Krest ++ t) h0
  rw [← List.cons_append, ← hKl] at hwh
  have hfm : firstMatch CustomLexer.rules (K.toList ++ t)
      = some (Tok.Keyword, K.toList.length) := by
    rw [hwh, hkw]
  have hstep := tokenize_cons customFirstMatch_bound hfm
  rw [take_len_of_pref (List.prefix_append _ _), List.drop_left] at hstep
  exact hstep

theorem pulse_keywords_not_fstar : ∀ K ∈ pulse_keywords, K ∉ fstar_keywords := by
  decide

/-- Any active keyword (base or extension) at the head of the input, followed
by a word boundary, is emitted by the extension lexer as one Keyword token. -/
theorem pulseKeyword_token {K : String}
    (hK : K ∈ fstar_keywords ∨ K ∈ pulse_keywords)
    {t : List Char} (hb : boundaryAt (K.toList ++ t) K.toList.length = true) :
    PulseLexer.get_tokens (K.toList ++ t)
      = (Tok.Keyword, K.toList) :: PulseLexer.get_tokens t := by
  have hgood : K.toList ≠ [] ∧ ∀ c ∈ K.toList, isWordChar c = true := by
    rcases hK with h | h
    · exact fstar_keywords_good K h
    · exact pulse_keywords_good K h
  obtain ⟨hne, hwchars⟩ := hgood
  obtain ⟨c0, Krest, hKl⟩ := exists_cons_of_ne_nil hne
  have h0 : isWordChar c0 = true :=
    hwchars c0 (by rw [hKl]; exact List.mem_cons_self _ _)
  have hwh := pulseFirstMatch_wordhead (Krest ++ t) h0
  rw [← List.cons_append, ← hKl] at hwh
  have hfm : firstMatch PulseLexer.rules (K.toList ++ t)
      = some (Tok.Keyword, K.toList.length) := by
    rcases hK with h | h
    · rw [hwh, wordsMatch_keyword fstar_keywords_good h hb]
    · rw [hwh, wordsMatch_notmem_none fstar_keywords_good
        (fun x hx => isPyWordChar_of_isWordChar (hwchars x hx))
        (pulse_keywords_not_fstar K h) hb,
        wordsMatch_keyword pulse_keywords_good h hb]
  have hstep := tokenize_cons pulseFirstMatch_bound hfm
  rw [take_len_of_pref (List.prefix_append _ _), List.drop_left] at hstep
  exact hstep

/-- A single non-word character (in Python's Unicode-aware sense) is one Text
token for the base lexer. -/
theorem customNonword_single {c : Char} (hc : isPyWordChar c = false) :
    CustomLexer.get_tokens [c] = [(Tok.Text, [c])] := by
  have hcA : isWordChar c = false := by
    cases hx : isWordChar c
    · rfl
    · rw [isPyWordChar_of_isWordChar hx] at hc; cases hc
  have hfm : firstMatch CustomLexer.rules [c] = some (Tok.Text, 1) := by
    by_cases h1 : c = ' '
    · subst h1; decide
    · by_cases h2 : c = '\n'
      · subst h2; decide
      · by_cases h3 : c = '\r'
        · subst h3; decide
        · have e1 : singleCharMatch ' ' [c] = none := singleCharMatch_ne h1 []
          have e2 : singleCharMatch '\n' [c] = none := singleCharMatch_ne h2 []
          have e3 : singleCharMatch '\r' [c] = none := singleCharMatch_ne h3 []
          have e4 : lineCommentMatch [c] = none := rfl
          have e5 : blockCommentMatch [c] = none := rfl
          have e6 : wordsMatch fstar_keywords [c] = none :=
            wordsMatch_nonword_head fstar_keywords_good hc []
          have e7 : charClassPlus isWordChar [c] = none := charClassPlus_neg [] hcA
          have e8 : anyCharMatch [c] = some 1 := by simp [anyCharMatch, h2]
          simp only [CustomLexer.rules, firstMatch, e1, e2, e3, e4, e5, e6, e7, e8]
  have hstep := tokenize_cons customFirstMatch_bound hfm
  simpa [tokenize, tokenizeF] using hstep

/-- A single non-word character (in Python's Unicode-aware sense) is one Text
token for the extension lexer. -/
theorem pulseNonword_single {c : Char} (hc : isPyWordChar c = false) :
    PulseLexer.get_tokens [c] = [(Tok.Text, [c])] := by
  have hcA : isWordChar c = false := by
    cases hx : isWordChar c
    · rfl
    · rw [isPyWordChar_of_isWordChar hx] at hc; cases hc
  have hfm : firstMatch PulseLexer.rules [c] = some (Tok.Text, 1) := by
    by_cases h1 : c = ' '
    · subst h1; decide
    · by_cases h2 : c = '\n'
      · subst h2; decide
      · by_cases h3 : c = '\r'
        · subst h3; decide
        · have e1 : singleCharMatch ' ' [c] = none := singleCharMatch_ne h1 []
          have e2 : singleCharMatch '\n' [c] = none := singleCharMatch_ne h2 []
          have e3 : singleCharMatch '\r' [c] = none := singleCharMatch_ne h3 []
          have e4 : lineCommentMatch [c] = none := rfl
          have e5 : blockCommentMatch [c] = none := rfl
          have e6 : wordsMatch fstar_keywords [c] = none :=
            wordsMatch_nonword_head fstar_keywords_good hc []
          have e6b : wordsMatch pulse_keywords [c] = none :=
            wordsMatch_nonword_head pulse_keywords_good hc []
          have e7 : charClassPlus isIdentNoDigit [c] = none :=
            charClassPlus_neg [] (isIdentNoDigit_eq_false hcA)
          have e8 : anyCharMatch [c] = some 1 := by simp [anyCharMatch, h2]
          simp only [PulseLexer.rules, firstMatch, e1, e2, e3, e4, e5, e6, e6b, e7, e8]
  have hstep := tokenize_cons pulseFirstMatch_bound hfm
  simpa [tokenize, tokenizeF] using hstep

/-- A keyword immediately followed by a word character is never emitted as a
Keyword token with exactly its own text (base lexer). -/
theorem customNoKw_on_wordchar {K : String} (hK : K ∈ fstar_keywords)
    {c : Char} (hc : isPyWordChar c = true) (rest : List Char) :
    (CustomLexer.get_tokens (K.toList ++ c :: rest)).head?
      ≠ some (Tok.Keyword, K.toList) := by
  obtain ⟨hne, hwchars⟩ := fstar_keywords_good K hK
  have hbfalse : boundaryAt (K.toList ++ c :: rest) K.toList.length = false := by
    rw [boundaryAt_append, boundaryAt_cons_zero, hc]
    rfl
  obtain ⟨c0, Krest, hKl⟩ := exists_cons_of_ne_nil hne
  have h0 : isWordChar c0 = true :=
    hwchars c0 (by rw [hKl]; exact List.mem_cons_self _ _)
  have hwh := customFirstMatch_wordhead (Krest ++ c :: rest) h0
  rw [← List.cons_append, ← hKl] at hwh
  simp only [CustomLexer.get_tokens]
  cases hkw : wordsMatch fstar_keywords (K.toList ++ c :: rest) with
  | some n =>
    rw [hkw] at hwh
    obtain ⟨K', hK', hpre', hb', rfl⟩ := wordsMatch_some_spec hkw
    have hstep := tokenize_cons customFirstMatch_bound hwh
    rw [take_len_of_pref hpre'] at hstep
    rw [hstep]
    intro hhead
    simp only [List.head?_cons, Option.some.injEq, Prod.mk.injEq] at hhead
    have hKK : K' = K := string_eq_of_toList_eq hhead.2
    subst hKK
    rw [hb'] at hbfalse
    cases hbfalse
  | none =>
    rw [hkw] at hwh
    have hstep := tokenize_cons customFirstMatch_bound hwh
    rw [hstep]
    intro hhead
    simp only [List.head?_cons, Option.some.injEq, Prod.mk.injEq] at hhead
    cases hhead.1

/-- A keyword immediately followed by a word character is never emitted as a
Keyword token with exactly its own text (extension lexer). -/
theorem pulseNoKw_on_wordchar {K : String}
    (hK : K ∈ fstar_keywords ∨ K ∈ pulse_keywords)
    {c : Char} (hc : isPyWordChar c = true) (rest : List Char) :
    (PulseLexer.get_tokens (K.toList ++ c :: rest)).head?
      ≠ some (Tok.Keyword, K.toList) := by
  have hgood : K.toList ≠ [] ∧ ∀ x ∈ K.toList, isWordChar x = true := by
    rcases hK with h | h
    · exact fstar_keywords_good K h
    · exact pulse_keywords_good K h
  obtain ⟨hne, hwchars⟩ := hgood
  have hbfalse : boundaryAt (K.toList ++ c :: rest) K.toList.length = false := by
    rw [boundaryAt_append, boundaryAt_cons_zero, hc]
    rfl
  obtain ⟨c0, Krest, hKl⟩ := exists_cons_of_ne_nil hne
  have h0 : isWordChar c0 = true :=
    hwchars c0 (by rw [hKl]; exact List.mem_cons_self _ _)
  have hwh := pulseFirstMatch_wordhead (Krest ++ c :: rest) h0
  rw [← List.cons_append, ← hKl] at hwh
  simp only [PulseLexer.get_tokens]
  cases hkw : wordsMatch fstar_keywords (K.toList ++ c :: rest) with
  | some n =>
    rw [hkw] at hwh
    obtain ⟨K', hK', hpre', hb', rfl⟩ := wordsMatch_some_spec hkw
    have hstep := tokenize_cons pulseFirstMatch_bound hwh
    rw [take_len_of_pref hpre'] at hstep
    rw [hstep]
    intro hhead
    simp only [List.head?_cons, Option.some.injEq, Prod.mk.injEq] at hhead
    have hKK : K' = K := string_eq_of_toList_eq hhead.2
    subst hKK
    rw [hb'] at hbfalse
    cases hbfalse
  | none =>
    rw [hkw] at hwh
    cases hkw2 : wordsMatch pulse_keywords (K.toList ++ c :: rest) with
    | some n =>
      rw [hkw2] at hwh
      obtain ⟨K', hK', hpre', hb', rfl⟩ := wordsMatch_some_spec hkw2
      have hstep := tokenize_cons pulseFirstMatch_bound hwh
      rw [take_len_of_pref hpre'] at hstep
      rw [hstep]
      intro hhead
      simp only [List.head?_cons, Option.some.injEq, Prod.mk.injEq] at hhead
      have hKK : K' = K := string_eq_of_toList_eq hhead.2
      subst hKK
      rw [hb'] at hbfalse
      cases hbfalse
    | none =>
      rw [hkw2] at hwh
      by_cases hid : isIdentNoDigit c0 = true
      · rw [if_pos hid] at hwh
        have hstep := tokenize_cons pulseFirstMatch_bound hwh
        rw [hstep]
        intro hhead
        simp only [List.head?_cons, Option.some.injEq, Prod.mk.injEq] at hhead
        cases hhead.1
      · rw [if_neg hid] at hwh
        have hstep := tokenize_cons pulseFirstMatch_bound hwh
        rw [hstep]
        intro hhead
        simp only [List.head?_cons, Option.some.injEq, Prod.mk.injEq] at hhead
        cases hhead.1

/-! Identifier tokens for non-keywords, and keyword tokens at end of input -/

theorem leadingCount_of_all {p : Char → Bool} {l : List Char}
    (h : ∀ x ∈ l, p x = true) : leadingCount p l = l.length := by
  induction l with
  | nil => rfl
  | cons c cs ih =>
    rw [leadingCount_pos_head (h c (List.mem_cons_self _ _)),
      ih (fun x hx => h x (List.mem_cons_of_mem _ hx))]
    rfl

theorem leadingCount_append_of_all {p : Char → Bool} {l : List Char}
    (hl : ∀ x ∈ l, p x = true) {c : Char} (hc : p c = false) (t : List Char) :
    leadingCount p (l ++ c :: t) = l.length := by
  induction l with
  | nil => simp [leadingCount, hc]
  | cons d l2 ih =>
    rw [List.cons_append, leadingCount_pos_head (hl d (List.mem_cons_self _ _)),
      ih (fun x hx => hl x (List.mem_cons_of_mem _ hx))]
    rfl

/-- An extension keyword followed by a non-word character is, for the base
lexer, an identifier: one Text token with the keyword text. -/
theorem customText_token {K : String} (hK : K ∈ pulse_keywords)
    {c : Char} (hc : isPyWordChar c = false) :
    CustomLexer.get_tokens (K.toList ++ [c])
      = [(Tok.Text, K.toList), (Tok.Text, [c])] := by
  obtain ⟨hne, hwchars⟩ := pulse_keywords_good K hK
  obtain ⟨c0, Krest, hKl⟩ := exists_cons_of_ne_nil hne
  have h0 : isWordChar c0 = true :=
    hwchars c0 (by rw [hKl]; exact List.mem_cons_self _ _)
  have hb : boundaryAt (K.toList ++ [c]) K.toList.length = true := by
    rw [boundaryAt_append, boundaryAt_cons_zero, hc]
    rfl
  have hnone : wordsMatch fstar_keywords (K.toList ++ [c]) = none :=
    wordsMatch_notmem_none fstar_keywords_good
      (fun x hx => isPyWordChar_of_isWordChar (hwchars x hx))
      (pulse_keywords_not_fstar K hK) hb
  have hwh := customFirstMatch_wordhead (Krest ++ [c]) h0
  rw [← List.cons_append, ← hKl] at hwh
  rw [hnone] at hwh
  have hcA : isWordChar c = false := by
    cases hx : isWordChar c
    · rfl
    · rw [isPyWordChar_of_isWordChar hx] at hc; cases hc
  have hlc : leadingCount isWordChar (K.toList ++ [c]) = K.toList.length :=
    leadingCount_append_of_all hwchars hcA []
  rw [hlc] at hwh
  have hstep := tokenize_cons customFirstMatch_bound hwh
  rw [take_len_of_pref (List.prefix_append _ _), List.drop_left] at hstep
  show tokenize CustomLexer.rules (K.toList ++ [c]) = _
  rw [hstep, show tokenize CustomLexer.rules [c] = [(Tok.Text, [c])] from
    customNonword_single hc]

/-- An extension keyword standing alone at end of input is, for the base
lexer, one Text token. -/
theorem customText_token_end {K : String} (hK : K ∈ pulse_keywords) :
    CustomLexer.get_tokens K.toList = [(Tok.Text, K.toList)] := by
  obtain ⟨hne, hwchars⟩ := pulse_keywords_good K hK
  obtain ⟨c0, Krest, hKl⟩ := exists_cons_of_ne_nil hne
  have h0 : isWordChar c0 = true :=
    hwchars c0 (by rw [hKl]; exact List.mem_cons_self _ _)
  have hb : boundaryAt (K.toList ++ ([] : List Char)) K.toList.length = true := by
    rw [List.append_nil]
    exact boundaryAt_end _
  have hnone : wordsMatch fstar_keywords (K.toList ++ ([] : List Char)) = none :=
    wordsMatch_notmem_none fstar_keywords_good
      (fun x hx => isPyWordChar_of_isWordChar (hwchars x hx))
      (pulse_keywords_not_fstar K hK) hb
  rw [List.append_nil] at hnone
  have hwh := customFirstMatch_wordhead Krest h0
  rw [← hKl] at hwh
  rw [hnone] at hwh
  have hlc : leadingCount isWordChar K.toList = K.toList.length :=
    leadingCount_of_all hwchars
  rw [hlc] at hwh
  have hstep := tokenize_cons customFirstMatch_bound hwh
  rw [List.take_length, List.drop_length] at hstep
  show tokenize CustomLexer.rules K.toList = _
  rw [hstep]
  rfl

/-- Any active keyword standing alone at end of input is one Keyword token
for the extension lexer (the boundary holds at end of input). -/
theorem pulseKeyword_token_end {K : String}
    (hK : K ∈ fstar_keywords ∨ K ∈ pulse_keywords) :
    PulseLexer.get_tokens K.toList = [(Tok.Keyword, K.toList)] := by
  have hb : boundaryAt (K.toList ++ ([] : List Char)) K.toList.length = true := by
    rw [List.append_nil]
    exact boundaryAt_end _
  have h := pulseKeyword_token hK hb
  rw [List.append_nil] at h
  rw [h]
  rfl

/-! Line comments and newline-free inputs -/

theorem idxOfNl_eq_none {s : List Char} (h : '\n' ∉ s) : idxOfNl s = none := by
  induction s with
  | nil => rfl
  | cons c cs ih =>
    simp only [List.mem_cons, not_or] at h
    simp only [idxOfNl]
    rw [if_neg (fun hc => h.1 hc.symm), ih h.2]
    rfl

theorem lineCommentMatch_none {s : List Char} (h : '\n' ∉ s) :
    lineCommentMatch s = none := by
  match s with
  | [] => rfl
  | [c] => rfl
  | c1 :: c2 :: rest =>
    simp only [lineCommentMatch]
    split
    · have hr : '\n' ∉ rest :=
        fun hm => h (List.mem_cons_of_mem _ (List.mem_cons_of_mem _ hm))
      rw [idxOfNl_eq_none hr]
      rfl
    · rfl

/-! Block comments and close-delimiter-free inputs -/

theorem hasClose_cons_of (c : Char) {t : List Char} (h : hasClose t = true) :
    hasClose (c :: t) = true := by
  match t with
  | [] => simp [hasClose] at h
  | c2 :: rest =>
    simp only [hasClose] at h ⊢
    rw [h]
    simp

theorem hasClose_drop {t : List Char} {k : Nat} (h : hasClose (t.drop k) = true) :
    hasClose t = true := by
  induction k generalizing t with
  | zero => simpa using h
  | succ k ih =>
    match t with
    | [] => simpa using h
    | c :: rest => exact hasClose_cons_of c (ih (by simpa using h))

theorem hasClose_append (l1 l2 : List Char) :
    hasClose (l1 ++ '*' :: ')' :: l2) = true := by
  induction l1 with
  | nil => simp [hasClose]
  | cons c l1' ih =>
    have hex : ∃ d t, l1' ++ '*' :: ')' :: l2 = d :: t := by
      cases l1' with
      | nil => exact ⟨'*', _, rfl⟩
      | cons d t => exact ⟨d, _, rfl⟩
    obtain ⟨d, t, hdt⟩ := hex
    rw [List.cons_append, hdt]
    simp only [hasClose]
    rw [← hdt, ih]
    simp

/-- A successful block-body match certifies that the input contains the close
delimiter `*)`. -/
theorem blockBodyF_hasClose (fuel : Nat) (s : List Char) (n : Nat)
    (h : blockBodyF fuel s = some n) : hasClose s = true := by
  obtain ⟨h2, hle, hsuf⟩ := blockBodyF_bound fuel s n h
  obtain ⟨t, ht⟩ := hsuf
  have hs : s = t ++ '*' :: ')' :: s.drop n := by
    conv_lhs => rw [← List.take_append_drop n s]
    rw [← ht]
    simp
  rw [hs]
  exact hasClose_append _ _

/-- The block-comment rule cannot match when no close delimiter `*)` occurs
after the two-character open delimiter. -/
theorem blockCommentMatch_none {s : List Char} (h : hasClose (s.drop 2) = false) :
    blockCommentMatch s = none := by
  match s with
  | [] => rfl
  | [c] => rfl
  | c1 :: c2 :: rest =>
    simp only [blockCommentMatch]
    split
    · cases hb : blockBodyF (rest.length + 1) rest with
      | none => rfl
      | some m =>
        have hcl := blockBodyF_hasClose _ _ _ hb
        rw [show (c1 :: c2 :: rest).drop 2 = rest from rfl] at h
        rw [hcl] at h
        cases h
    · rfl

/-! Existence of a block-comment match when a close delimiter is present -/

theorem blockBodyF_succ_star (fuel : Nat) (t : List Char) :
    blockBodyF (fuel + 1) ('*' :: t)
      = starLoop (blockBodyF fuel) (leadingStars ('*' :: t)) ('*' :: t) := by
  simp [blockBodyF]

theorem blockBodyF_succ_nonstar {c : Char} (h : c ≠ '*') (fuel : Nat)
    (t : List Char) :
    blockBodyF (fuel + 1) (c :: t) = (blockBodyF fuel t).map (· + 1) := by
  simp only [blockBodyF]
  rw [if_neg h]

/-- If the loop fails entirely then in particular the tail fails. -/
theorem starLoop_ne_none_of_starTail (rec : List Char → Option Nat)
    {s : List Char} (h : starTail s ≠ none) :
    ∀ j, starLoop rec j s ≠ none := by
  intro j
  induction j with
  | zero => exact h
  | succ j ih =>
    simp only [starLoop]
    intro horelse
    cases hb : (if s[j + 1]? = none ∨ s[j + 1]? = some ')' then none
        else (rec (s.drop (j + 2))).map (· + (j + 2))) with
    | some m =>
      rw [hb] at horelse
      simp [Option.orElse] at horelse
    | none =>
      rw [hb] at horelse
      simp only [Option.orElse] at horelse
      exact ih horelse

/-- If some star-count `w ≤ j` yields a successful continuation, the loop from
`j` downwards succeeds. -/
theorem starLoop_ne_none_of_branch {rec : List Char → Option Nat} {s : List Char}
    {w : Nat} (hw : 1 ≤ w) {c : Char} (hcg : s[w]? = some c) (hcp : c ≠ ')')
    {m : Nat} (hm : rec (s.drop (w + 1)) = some m) :
    ∀ j, w ≤ j → starLoop rec j s ≠ none := by
  intro j
  induction j with
  | zero => intro hwj; omega
  | succ j ih =>
    intro hwj
    simp only [starLoop]
    intro horelse
    by_cases heq : w = j + 1
    · subst heq
      have hcond : ¬(s[j + 1]? = none ∨ s[j + 1]? = some ')') := by
        rw [hcg]
        simp [hcp]
      rw [if_neg hcond] at horelse
      have hm2 : rec (s.drop (j + 2)) = some m := hm
      rw [hm2] at horelse
      simp [Option.orElse] at horelse
    · have hwj2 : w ≤ j := by omega
      cases hb : (if s[j + 1]? = none ∨ s[j + 1]? = some ')' then none
          else (rec (s.drop (j + 2))).map (· + (j + 2))) with
      | some m2 =>
        rw [hb] at horelse
        simp [Option.orElse] at horelse
      | none =>
        rw [hb] at horelse
        simp only [Option.orElse] at horelse
        exact ih hwj2 horelse

theorem leadingStars_replicate_append {k : Nat} {d : Char} (hd : d ≠ '*')
    (v : List Char) :
    leadingStars (List.replicate k '*' ++ d :: v) = k := by
  induction k with
  | zero => simp [leadingStars, leadingCount, hd]
  | succ k ih =>
    rw [List.replicate_succ, List.cons_append]
    rw [show leadingStars ('*' :: (List.replicate k '*' ++ d :: v))
        = leadingStars (List.replicate k '*' ++ d :: v) + 1 from
      leadingCount_pos_head (by decide)]
    rw [ih]

theorem take_leadingStars (s : List Char) :
    s.take (leadingStars s) = List.replicate (leadingStars s) '*' := by
  have hall : ∀ x ∈ s.take (leadingStars s), x = '*' := fun x hx => by
    simpa using take_leadingCount_all (· = '*') s x hx
  have hlen : (s.take (leadingStars s)).length = leadingStars s := by
    simp only [List.length_take]
    have := leadingCount_le (fun x => decide (x = '*')) s
    simp only [leadingStars, leadingCount] at *
    omega
  rw [List.eq_replicate_of_mem hall, hlen]

theorem leadingCount_lt_getElem {p : Char → Bool} {s : List Char}
    (h : leadingCount p s < s.length) :
    ∃ c, s[leadingCount p s]? = some c ∧ p c = false := by
  induction s with
  | nil => simp at h
  | cons c cs ih =>
    by_cases hp : p c = true
    · rw [leadingCount_pos_head hp] at h ⊢
      simp only [List.length_cons] at h
      obtain ⟨d, hd, hpd⟩ := ih (by omega)
      exact ⟨d, by simpa using hd, hpd⟩
    · have hp2 : p c = false := by
        cases hx : p c
        · rfl
        · exact absurd hx hp
      rw [show leadingCount p (c :: cs) = 0 from by simp [leadingCount, hp2]]
      exact ⟨c, by simp, hp2⟩

/-- Positional existence: whenever a close delimiter `*)` follows, the greedy
backtracking body search succeeds (on some match, not necessarily the
shortest).  `u` is the close-free part before the first close delimiter. -/
theorem blockBodyF_exists :
    ∀ fuel (u v : List Char), (u ++ '*' :: ')' :: v).length < fuel →
      hasClose u = false →
      ∃ n, blockBodyF fuel (u ++ '*' :: ')' :: v) = some n := by
  intro fuel
  induction fuel with
  | zero =>
    intro u v h _
    omega
  | succ fuel ih =>
    intro u v hlen hcl
    cases u with
    | nil =>
      refine ⟨2, ?_⟩
      show blockBodyF (fuel + 1) ('*' :: ')' :: v) = some 2
      rw [blockBodyF_succ_star]
      have hls : leadingStars ('*' :: ')' :: v) = 1 := by
        rw [show leadingStars ('*' :: ')' :: v) = leadingStars (')' :: v) + 1 from
          leadingCount_pos_head (by decide)]
        simp [leadingStars, leadingCount]
      rw [hls]
      simp only [starLoop]
      rw [if_pos (Or.inr (by simp))]
      simp only [Option.orElse]
      simp only [starTail, hls]
      rw [if_neg (by omega), if_pos (by simp)]
    | cons c u' =>
      by_cases hstar : c = '*'
      · subst hstar
        have hunfold : blockBodyF (fuel + 1) (('*' :: u') ++ '*' :: ')' :: v)
            = starLoop (blockBodyF fuel)
                (leadingStars (('*' :: u') ++ '*' :: ')' :: v))
                (('*' :: u') ++ '*' :: ')' :: v) := by
          rw [List.cons_append]
          exact blockBodyF_succ_star fuel _
        by_cases hall : leadingStars ('*' :: u') = ('*' :: u').length
        · -- the close-free part consists of stars only: the tail matches
          have hrep : ('*' :: u')
              = List.replicate (('*' :: u').length) '*' := by
            have h1 := take_leadingStars ('*' :: u')
            rw [hall, List.take_length] at h1
            exact h1
          have hs : ('*' :: u') ++ '*' :: ')' :: v
              = List.replicate (('*' :: u').length + 1) '*' ++ ')' :: v := by
            rw [List.replicate_succ', List.append_assoc, ← hrep]
            rfl
          have hls : leadingStars (('*' :: u') ++ '*' :: ')' :: v)
              = ('*' :: u').length + 1 := by
            rw [hs]
            exact leadingStars_replicate_append (by decide) v
          have hget : (('*' :: u') ++ '*' :: ')' :: v)[('*' :: u').length + 1]?
              = some ')' := by
            rw [hs, List.getElem?_append_right (by simp)]
            simp
          have hls2 : leadingStars ('*' :: (u' ++ '*' :: ')' :: v))
              = ('*' :: u').length + 1 := hls
          have hget2 : ('*' :: (u' ++ '*' :: ')' :: v))[('*' :: u').length + 1]?
              = some ')' := hget
          have htail : starTail (('*' :: u') ++ '*' :: ')' :: v) ≠ none := by
            have hlt9 : u'.length + 1 < (u' ++ '*' :: ')' :: v).length := by
              simp
            have h9 : (u' ++ '*' :: ')' :: v)[u'.length + 1]? = some ')' := by
              rw [List.getElem?_append_right (by omega)]
              simp
            have h10 : (u' ++ '*' :: ')' :: v)[u'.length + 1] = ')' := by
              rw [List.getElem?_eq_getElem hlt9] at h9
              exact Option.some.inj h9
            simp [starTail, hls2, hget2, h10]
          have hne2 := starLoop_ne_none_of_starTail (blockBodyF fuel) htail
            (leadingStars (('*' :: u') ++ '*' :: ')' :: v))
          rw [← hunfold] at hne2
          cases hres : blockBodyF (fuel + 1) (('*' :: u') ++ '*' :: ')' :: v) with
          | none => exact absurd hres hne2
          | some n => exact ⟨n, rfl⟩
        · -- a non-star character follows the leading star run
          have ha1 : 1 ≤ leadingStars ('*' :: u') := by
            rw [show leadingStars ('*' :: u') = leadingStars u' + 1 from
              leadingCount_pos_head (by decide)]
            omega
          have hB : leadingStars ('*' :: u') < ('*' :: u').length := by
            have := leadingCount_le (fun x => decide (x = '*')) ('*' :: u')
            simp only [leadingStars, leadingCount] at *
            omega
          obtain ⟨d, hd, hpd⟩ := leadingCount_lt_getElem hB
          have hdne : d ≠ '*' := of_decide_eq_false hpd
          have hd2 : ('*' :: u')[leadingStars ('*' :: u')]? = some d := hd
          have hu_drop : ('*' :: u').drop (leadingStars ('*' :: u'))
              = d :: ('*' :: u').drop (leadingStars ('*' :: u') + 1) := by
            rw [List.drop_eq_getElem_cons hB]
            have h2 := List.getElem?_eq_getElem hB
            have h3 : ('*' :: u')[leadingStars ('*' :: u')] = d := by
              rw [h2] at hd2
              exact Option.some.inj hd2
            rw [h3]
          have hu_eq : ('*' :: u')
              = List.replicate (leadingStars ('*' :: u')) '*'
                ++ d :: ('*' :: u').drop (leadingStars ('*' :: u') + 1) := by
            conv_lhs => rw [← List.take_append_drop (leadingStars ('*' :: u')) ('*' :: u')]
            rw [take_leadingStars, hu_drop]
          have hdnp : d ≠ ')' := by
            intro hdp
            subst hdp
            have hrw : ('*' :: u')
                = List.replicate (leadingStars ('*' :: u') - 1) '*'
                  ++ '*' :: ')' :: ('*' :: u').drop (leadingStars ('*' :: u') + 1) := by
              conv_lhs => rw [hu_eq]
              rw [show leadingStars ('*' :: u') = (leadingStars ('*' :: u') - 1) + 1 from
                by omega, List.replicate_succ', List.append_assoc]
              simp
            have hclose : hasClose ('*' :: u') = true := by
              rw [hrw]
              exact hasClose_append _ _
            rw [hclose] at hcl
            cases hcl
          have hsa : (('*' :: u') ++ '*' :: ')' :: v)[leadingStars ('*' :: u')]?
              = some d := by
            rw [List.getElem?_append_left hB]
            exact hd2
          have hsdrop : (('*' :: u') ++ '*' :: ')' :: v).drop (leadingStars ('*' :: u') + 1)
              = ('*' :: u').drop (leadingStars ('*' :: u') + 1) ++ '*' :: ')' :: v :=
            List.drop_append_of_le_length (by omega)
          have hcl2 : hasClose (('*' :: u').drop (leadingStars ('*' :: u') + 1)) = false := by
            cases hx : hasClose (('*' :: u').drop (leadingStars ('*' :: u') + 1))
            · rfl
            · rw [hasClose_drop hx] at hcl
              cases hcl
          obtain ⟨m, hm⟩ := ih (('*' :: u').drop (leadingStars ('*' :: u') + 1)) v
            (by
              simp only [List.length_append, List.length_cons, List.length_drop] at hlen ⊢
              omega)
            hcl2
          have hm2 : blockBodyF fuel
              ((('*' :: u') ++ '*' :: ')' :: v).drop (leadingStars ('*' :: u') + 1))
              = some m := by
            rw [hsdrop]
            exact hm
          have hlss : leadingStars ('*' :: u')
              ≤ leadingStars (('*' :: u') ++ '*' :: ')' :: v) := by
            have heq : leadingStars (('*' :: u') ++ '*' :: ')' :: v)
                = leadingStars ('*' :: u') := by
              conv_lhs => rw [hu_eq]
              rw [List.append_assoc, List.cons_append]
              exact leadingStars_replicate_append hdne _
            omega
          have hne2 := starLoop_ne_none_of_branch ha1 hsa hdnp hm2
            (leadingStars (('*' :: u') ++ '*' :: ')' :: v)) hlss
          rw [← hunfold] at hne2
          cases hres : blockBodyF (fuel + 1) (('*' :: u') ++ '*' :: ')' :: v) with
          | none => exact absurd hres hne2
          | some n => exact ⟨n, rfl⟩
      · -- non-star head: the single-character alternative consumes it
        have hcl2 : hasClose u' = false := by
          cases hx : hasClose u'
          · rfl
          · rw [hasClose_cons_of c hx] at hcl
            cases hcl
        obtain ⟨m, hm⟩ := ih u' v
          (by
            simp only [List.length_append, List.length_cons] at hlen ⊢
            omega)
          hcl2
        refine ⟨m + 1, ?_⟩
        rw [List.cons_append, blockBodyF_succ_nonstar hstar, hm]
        rfl

theorem blockCommentMatch_exists (u v : List Char) (hcl : hasClose u = false) :
    ∃ n, blockCommentMatch ('(' :: '*' :: (u ++ '*' :: ')' :: v)) = some n := by
  obtain ⟨m, hm⟩ := blockBodyF_exists ((u ++ '*' :: ')' :: v).length + 1) u v
    (by omega) hcl
  refine ⟨m + 2, ?_⟩
  have hred : blockCommentMatch ('(' :: '*' :: (u ++ '*' :: ')' :: v))
      = (blockBodyF ((u ++ '*' :: ')' :: v).length + 1) (u ++ '*' :: ')' :: v)).map
          (· + 2) := by
    simp [blockCommentMatch]
  rw [hred, hm]
  rfl

end FStarPygments

namespace FStarPygments

/-! The claims -/

/-- C1 (confirmed).  Round-trip totality: for every input string, each
tokenizer variant (base `CustomLexer` and extension `PulseLexer`) emits a
finite ordered token sequence whose concatenated texts rebuild the input
exactly — no gaps, no overlaps. -/
theorem C1_round_trip :
    (∀ s : List Char, tokensText (CustomLexer.get_tokens s) = s)
  ∧ (∀ s : List Char, tokensText (PulseLexer.get_tokens s) = s) :=
  ⟨fun s => tokenizeF_text customFirstMatch_bound s.length s (Nat.le_refl _),
   fun s => tokenizeF_text pulseFirstMatch_bound s.length s (Nat.le_refl _)⟩

/-- C2 (confirmed).  Progress and termination: every committed rule match of
either tokenizer consumes at least one character (no zero-width match is ever
committed), and tokenization of a finite input emits at most `|S|` tokens,
i.e. finishes after at most `|S|` rule applications. -/
theorem C2_progress_termination :
    (∀ (s : List Char) (k : Tok) (n : Nat),
        firstMatch CustomLexer.rules s = some (k, n) → 1 ≤ n)
  ∧ (∀ (s : List Char) (k : Tok) (n : Nat),
        firstMatch PulseLexer.rules s = some (k, n) → 1 ≤ n)
  ∧ (∀ s : List Char, (CustomLexer.get_tokens s).length ≤ s.length)
  ∧ (∀ s : List Char, (PulseLexer.get_tokens s).length ≤ s.length) :=
  ⟨fun _ _ _ h => (customFirstMatch_bound h).1,
   fun _ _ _ h => (pulseFirstMatch_bound h).1,
   fun s => tokenizeF_count customFirstMatch_bound s.length s,
   fun s => tokenizeF_count pulseFirstMatch_bound s.length s⟩

theorem C2_witness :
    1 ≤ 1 ∧ (CustomLexer.get_tokens "let rec".toList).length ≤ 7 :=
  ⟨C2_progress_termination.1 " ".toList Tok.Text 1 (by decide),
   le_trans (C2_progress_termination.2.2.1 "let rec".toList)
     (le_of_eq (by decide))⟩

/-- C4 (confirmed).  Closed token vocabulary and no failure path: every token
emitted by either tokenizer has kind `Text`, `Comment` or `Keyword`; in
particular the `Error` kind of the host framework's dead fallback is never
emitted, and tokenization succeeds on every input. -/
theorem C4_closed_vocabulary :
    ∀ (s : List Char) (p : Tok × List Char),
      p ∈ CustomLexer.get_tokens s ∨ p ∈ PulseLexer.get_tokens s →
      p.1 = Tok.Text ∨ p.1 = Tok.Comment ∨ p.1 = Tok.Keyword := by
  intro s p hp
  rcases hp with hp | hp
  · have hk := tokenizeF_kind (fun c rest => customFirstMatch_ne_none c rest)
      s.length s p hp
    simp only [CustomLexer.rules, List.map_cons, List.map_nil, List.mem_cons,
      List.not_mem_nil, or_false] at hk
    rcases hk with h|h|h|h|h|h|h|h <;> simp [h]
  · have hk := tokenizeF_kind (fun c rest => pulseFirstMatch_ne_none c rest)
      s.length s p hp
    simp only [PulseLexer.rules, List.map_cons, List.map_nil, List.mem_cons,
      List.not_mem_nil, or_false] at hk
    rcases hk with h|h|h|h|h|h|h|h|h <;> simp [h]

theorem C4_witness :
    (Tok.Comment, "(*a*)".toList).1 = Tok.Text
  ∨ (Tok.Comment, "(*a*)".toList).1 = Tok.Comment
  ∨ (Tok.Comment, "(*a*)".toList).1 = Tok.Keyword :=
  C4_closed_vocabulary "(*a*)".toList (Tok.Comment, "(*a*)".toList)
    (Or.inl (by decide))

/-- C7 (confirmed).  Digit-handling asymmetry: the freestanding input `x1` is
one `Text` token for the base tokenizer (its identifier class contains
digits), but two `Text` tokens `x` and `1` for the extension tokenizer (its
identifier class omits digits, so the digit falls to the catch-all). -/
theorem C7_digit_asymmetry :
    CustomLexer.get_tokens "x1".toList = [(Tok.Text, "x1".toList)]
  ∧ PulseLexer.get_tokens "x1".toList = [(Tok.Text, ['x']), (Tok.Text, ['1'])] := by
  decide

/-- C3 (counterexample).  The claim "the catch-all rule matches every single
character" fails at the newline: the catch-all `r'.'` of both tokenizers does
not match `'\n'` (Pygments compiles without `re.DOTALL`); the newline is
consumed by the earlier `r'\n'` rule instead. -/
theorem C3_counterexample :
    anyCharMatch ['\n'] = none
  ∧ firstMatch CustomLexer.rules ['\n'] = some (Tok.Text, 1)
  ∧ firstMatch PulseLexer.rules ['\n'] = some (Tok.Text, 1) := by
  decide

/-- C3 (amended, proved).  The catch-all matches every single character
except the newline; the newline is matched by an earlier rule, so on every
non-empty input some rule of each tokenizer matches and the scan always
advances — no unmatched gap. -/
theorem C3_amended :
    (∀ (c : Char) (rest : List Char), c ≠ '\n' → anyCharMatch (c :: rest) = some 1)
  ∧ (∀ (c : Char) (rest : List Char), ∃ k n,
        firstMatch CustomLexer.rules (c :: rest) = some (k, n) ∧ 1 ≤ n)
  ∧ (∀ (c : Char) (rest : List Char), ∃ k n,
        firstMatch PulseLexer.rules (c :: rest) = some (k, n) ∧ 1 ≤ n) := by
  refine ⟨?_, ?_, ?_⟩
  · intro c rest hc
    simp [anyCharMatch, hc]
  · intro c rest
    cases hfm : firstMatch CustomLexer.rules (c :: rest) with
    | none => exact absurd hfm (customFirstMatch_ne_none c rest)
    | some kn =>
      obtain ⟨k, n⟩ := kn
      exact ⟨k, n, rfl, (customFirstMatch_bound hfm).1⟩
  · intro c rest
    cases hfm : firstMatch PulseLexer.rules (c :: rest) with
    | none => exact absurd hfm (pulseFirstMatch_ne_none c rest)
    | some kn =>
      obtain ⟨k, n⟩ := kn
      exact ⟨k, n, rfl, (pulseFirstMatch_bound hfm).1⟩

theorem C3_witness :
    anyCharMatch ['a'] = some 1
  ∧ (∃ k n, firstMatch CustomLexer.rules ['\n'] = some (k, n) ∧ 1 ≤ n) :=
  ⟨C3_amended.1 'a' [] (by decide), C3_amended.2.1 '\n' []⟩

/-- C5 (counterexample).  The claim "an input of the exact form K followed by
a non-identifier character makes the tokenizer emit K as a single Keyword
token" fails at `let` followed by `é`: `é` is not an identifier character of
either lexer (both identifier classes are ASCII), yet Python's Unicode-aware
`\b` counts it as a word character, so the word boundary fails and both
tokenizers emit Text `let` then Text `é` — no Keyword token. -/
theorem C5_counterexample :
    isWordChar 'é' = false
  ∧ isIdentNoDigit 'é' = false
  ∧ CustomLexer.get_tokens ("let".toList ++ ['é'])
      = [(Tok.Text, "let".toList), (Tok.Text, ['é'])]
  ∧ PulseLexer.get_tokens ("let".toList ++ ['é'])
      = [(Tok.Text, "let".toList), (Tok.Text, ['é'])] := by
  decide

/-- C5 (amended, proved).  Word-boundary anchoring of keyword matching, with
the boundary read as Python's Unicode-aware `\b`: for every keyword of the
active set followed by one character that is not a word character (not an
ASCII identifier character and not any other Unicode word character such as
`é`), the tokenizer emits the keyword as a single Keyword token, then the
remaining character as Text; when the keyword is immediately followed by any
word character, no Keyword token with exactly the keyword's text is emitted
at that position — in particular `letrec` is one Text run, not the keyword
`let` plus a remainder. -/
theorem C5_keyword_boundary :
    (∀ K ∈ fstar_keywords, ∀ c : Char, isPyWordChar c = false →
        CustomLexer.get_tokens (K.toList ++ [c])
          = [(Tok.Keyword, K.toList), (Tok.Text, [c])])
  ∧ (∀ K : String, K ∈ fstar_keywords ∨ K ∈ pulse_keywords →
      ∀ c : Char, isPyWordChar c = false →
        PulseLexer.get_tokens (K.toList ++ [c])
          = [(Tok.Keyword, K.toList), (Tok.Text, [c])])
  ∧ (∀ K ∈ fstar_keywords, ∀ c : Char, isPyWordChar c = true → ∀ rest : List Char,
        (CustomLexer.get_tokens (K.toList ++ c :: rest)).head?
          ≠ some (Tok.Keyword, K.toList))
  ∧ (∀ K : String, K ∈ fstar_keywords ∨ K ∈ pulse_keywords →
      ∀ c : Char, isPyWordChar c = true → ∀ rest : List Char,
        (PulseLexer.get_tokens (K.toList ++ c :: rest)).head?
          ≠ some (Tok.Keyword, K.toList))
  ∧ CustomLexer.get_tokens "letrec".toList = [(Tok.Text, "letrec".toList)]
  ∧ PulseLexer.get_tokens "letrec".toList = [(Tok.Text, "letrec".toList)] := by
  refine ⟨?_, ?_, ?_, ?_, ?_, ?_⟩
  · intro K hK c hc
    have hb : boundaryAt (K.toList ++ [c]) K.toList.length = true := by
      rw [boundaryAt_append, boundaryAt_cons_zero, hc]
      rfl
    rw [customKeyword_token hK hb, customNonword_single hc]
  · intro K hK c hc
    have hb : boundaryAt (K.toList ++ [c]) K.toList.length = true := by
      rw [boundaryAt_append, boundaryAt_cons_zero, hc]
      rfl
    rw [pulseKeyword_token hK hb, pulseNonword_single hc]
  · intro K hK c hc rest
    exact customNoKw_on_wordchar hK hc rest
  · intro K hK c hc rest
    exact pulseNoKw_on_wordchar hK hc rest
  · decide
  · decide

theorem C5_witness :
    CustomLexer.get_tokens ("let".toList ++ [' '])
      = [(Tok.Keyword, "let".toList), (Tok.Text, [' '])]
  ∧ (CustomLexer.get_tokens ("let".toList ++ 'r' :: "ec".toList)).head?
      ≠ some (Tok.Keyword, "let".toList) :=
  ⟨C5_keyword_boundary.1 "let" (by decide) ' ' (by decide),
   C5_keyword_boundary.2.2.1 "let" (by decide) 'r' (by decide) "ec".toList⟩

/-- C9 (counterexample).  The claim "an input that starts with `//` and
contains no newline emits no Comment token and is emitted entirely as Text"
fails: in `//(*x*)` the line-comment rule indeed never matches, but the
block-comment rule emits a Comment token for `(*x*)`. -/
theorem C9_counterexample :
    CustomLexer.get_tokens "//(*x*)".toList
      = [(Tok.Text, ['/']), (Tok.Text, ['/']), (Tok.Comment, "(*x*)".toList)]
  ∧ PulseLexer.get_tokens "//(*x*)".toList
      = [(Tok.Text, ['/']), (Tok.Text, ['/']), (Tok.Comment, "(*x*)".toList)]
  ∧ '\n' ∉ "//(*x*)".toList := by
  decide

/-- C9 (amended, proved).  The line-comment rule `r'//.*\n'` never matches in
a newline-free input (so an unterminated line comment at end of input is
never a line comment): `// hello` is emitted as Text tokens by the catch-all
and identifier rules; a newline-terminated comment `// hello\nlet` is one
Comment token including the newline, followed by keyword `let`.  (A block
comment appearing later in a newline-free input may still emit Comment.) -/
theorem C9_amended :
    (∀ s : List Char, '\n' ∉ s → lineCommentMatch s = none)
  ∧ CustomLexer.get_tokens "// hello".toList =
      [(Tok.Text, ['/']), (Tok.Text, ['/']), (Tok.Text, [' ']), (Tok.Text, "hello".toList)]
  ∧ PulseLexer.get_tokens "// hello".toList =
      [(Tok.Text, ['/']), (Tok.Text, ['/']), (Tok.Text, [' ']), (Tok.Text, "hello".toList)]
  ∧ CustomLexer.get_tokens "// hello\nlet".toList =
      [(Tok.Comment, "// hello\n".toList), (Tok.Keyword, "let".toList)]
  ∧ PulseLexer.get_tokens "// hello\nlet".toList =
      [(Tok.Comment, "// hello\n".toList), (Tok.Keyword, "let".toList)] := by
  refine ⟨fun s h => lineCommentMatch_none h, ?_, ?_, ?_, ?_⟩ <;> decide

theorem C9_witness : lineCommentMatch "// x".toList = none :=
  C9_amended.1 "// x".toList (by decide)

/-- C10 (counterexample).  The implicit claim "an input containing `(*` with
no subsequent `*)` emits the open delimiter and following characters as Text,
with no Comment token covering that span" fails: in `//(*\n` the open
delimiter at offset 2 has no subsequent close, yet the line-comment rule
emits a single Comment token covering the whole input, `(*` included. -/
theorem C10_counterexample :
    CustomLexer.get_tokens "//(*\n".toList = [(Tok.Comment, "//(*\n".toList)]
  ∧ "//(*\n".toList.drop 2 = ['(', '*', '\n']
  ∧ hasClose ("//(*\n".toList.drop 2) = false := by
  decide

/-- C10 (amended, proved).  The block-comment rule itself never matches at a
position with no later close delimiter: whenever `*)` does not occur after
the two-character open position, `blockCommentMatch` fails, and (in the
absence of an enclosing line comment) the characters fall through to the
identifier and catch-all rules as Text, as in `(*x`.  -/
theorem C10_amended :
    (∀ s : List Char, hasClose (s.drop 2) = false → blockCommentMatch s = none)
  ∧ CustomLexer.get_tokens "(*x".toList
      = [(Tok.Text, ['(']), (Tok.Text, ['*']), (Tok.Text, ['x'])]
  ∧ PulseLexer.get_tokens "(*x".toList
      = [(Tok.Text, ['(']), (Tok.Text, ['*']), (Tok.Text, ['x'])] := by
  refine ⟨fun s h => blockCommentMatch_none h, ?_, ?_⟩ <;> decide

theorem C10_witness : blockCommentMatch "(* x".toList = none :=
  C10_amended.1 "(* x".toList (by decide)

/-- C6 (counterexample).  The claim "the Comment token spans the shortest
prefix from the open delimiter through a close delimiter" fails on
`(***)*)`: its prefix of length 5, `(***)`, already ends in the close
delimiter `*)`, yet both tokenizers emit a single Comment token spanning the
whole seven-character input — greedy backtracking lets `[*]+[^)]` swallow
`**` before `)` and continue past the first close. -/
theorem C6_counterexample :
    CustomLexer.get_tokens "(***)*)".toList = [(Tok.Comment, "(***)*)".toList)]
  ∧ PulseLexer.get_tokens "(***)*)".toList = [(Tok.Comment, "(***)*)".toList)]
  ∧ "(***)*)".toList.take 5 = "(***)".toList
  ∧ ['*', ')'] <:+ "(***)".toList
  ∧ "(***)*)".toList ≠ "(***)".toList := by
  decide

/-- C6 (amended, proved).  For an input beginning with the open delimiter
`(*` that contains a later close delimiter `*)` (written as the close-free
part `u` followed by `*)` and arbitrary `v`), both tokenizers emit a single
leading Comment token that starts with `(*` and ends with `*)` — but (per the
counterexample) it is the match chosen by the regex's greedy backtracking,
which is not always the shortest prefix through a close delimiter. -/
theorem C6_amended :
    ∀ u v : List Char, hasClose u = false →
      (∃ t ts, CustomLexer.get_tokens ('(' :: '*' :: (u ++ '*' :: ')' :: v))
          = (Tok.Comment, t) :: ts ∧ ['(', '*'] <+: t ∧ ['*', ')'] <:+ t)
    ∧ (∃ t ts, PulseLexer.get_tokens ('(' :: '*' :: (u ++ '*' :: ')' :: v))
          = (Tok.Comment, t) :: ts ∧ ['(', '*'] <+: t ∧ ['*', ')'] <:+ t) := by
  intro u v hcl
  obtain ⟨n, hn⟩ := blockCommentMatch_exists u v hcl
  obtain ⟨h4, hle, hpre, hsuf⟩ := blockCommentMatch_bound hn
  have e1 : singleCharMatch ' ' ('(' :: '*' :: (u ++ '*' :: ')' :: v)) = none :=
    singleCharMatch_ne (by decide) _
  have e2 : singleCharMatch '\n' ('(' :: '*' :: (u ++ '*' :: ')' :: v)) = none :=
    singleCharMatch_ne (by decide) _
  have e3 : singleCharMatch '\r' ('(' :: '*' :: (u ++ '*' :: ')' :: v)) = none :=
    singleCharMatch_ne (by decide) _
  have e4 : lineCommentMatch ('(' :: '*' :: (u ++ '*' :: ')' :: v)) = none :=
    lineCommentMatch_ne (by decide) _
  constructor
  · have hfm : firstMatch CustomLexer.rules ('(' :: '*' :: (u ++ '*' :: ')' :: v))
        = some (Tok.Comment, n) := by
      simp only [CustomLexer.rules, firstMatch, e1, e2, e3, e4, hn]
    have hstep := tokenize_cons customFirstMatch_bound hfm
    exact ⟨_, _, hstep, hpre, hsuf⟩
  · have hfm : firstMatch PulseLexer.rules ('(' :: '*' :: (u ++ '*' :: ')' :: v))
        = some (Tok.Comment, n) := by
      simp only [PulseLexer.rules, firstMatch, e1, e2, e3, e4, hn]
    have hstep := tokenize_cons pulseFirstMatch_bound hfm
    exact ⟨_, _, hstep, hpre, hsuf⟩

theorem C6_witness :
    (∃ t ts, CustomLexer.get_tokens ('(' :: '*' :: (['x'] ++ '*' :: ')' :: []))
        = (Tok.Comment, t) :: ts ∧ ['(', '*'] <+: t ∧ ['*', ')'] <:+ t)
  ∧ (∃ t ts, PulseLexer.get_tokens ('(' :: '*' :: (['x'] ++ '*' :: ')' :: []))
        = (Tok.Comment, t) :: ts ∧ ['(', '*'] <+: t ∧ ['*', ')'] <:+ t) :=
  C6_amended ['x'] [] (by decide)

/-- C8 (counterexample).  The claim quantifies over every non-identifier
follower, but at `fn` followed by `é` — not an identifier character of either
lexer — the extension tokenizer does not classify `fn` as Keyword: Python's
Unicode-aware `\b` counts `é` as a word character, the boundary fails, and
both tokenizers emit Text `fn` then Text `é`. -/
theorem C8_counterexample :
    isWordChar 'é' = false
  ∧ isIdentNoDigit 'é' = false
  ∧ PulseLexer.get_tokens ("fn".toList ++ ['é'])
      = [(Tok.Text, "fn".toList), (Tok.Text, ['é'])]
  ∧ CustomLexer.get_tokens ("fn".toList ++ ['é'])
      = [(Tok.Text, "fn".toList), (Tok.Text, ['é'])] := by
  decide

/-- C8 (amended, proved).  Extension vocabulary split, with the follower
condition read as Python's Unicode-aware `\b`: every extension keyword
followed by a non-word character or standing at end of input is a `Text`
(identifier) token for the base tokenizer but a `Keyword` token for the
extension tokenizer; and the extension tokenizer likewise recognizes every
base keyword as `Keyword`. -/
theorem C8_extension_vocabulary :
    (∀ K ∈ pulse_keywords, ∀ c : Char, isPyWordChar c = false →
        CustomLexer.get_tokens (K.toList ++ [c])
          = [(Tok.Text, K.toList), (Tok.Text, [c])]
      ∧ PulseLexer.get_tokens (K.toList ++ [c])
          = [(Tok.Keyword, K.toList), (Tok.Text, [c])])
  ∧ (∀ K ∈ pulse_keywords,
        CustomLexer.get_tokens K.toList = [(Tok.Text, K.toList)]
      ∧ PulseLexer.get_tokens K.toList = [(Tok.Keyword, K.toList)])
  ∧ (∀ K ∈ fstar_keywords, ∀ c : Char, isPyWordChar c = false →
        PulseLexer.get_tokens (K.toList ++ [c])
          = [(Tok.Keyword, K.toList), (Tok.Text, [c])])
  ∧ (∀ K ∈ fstar_keywords,
        PulseLexer.get_tokens K.toList = [(Tok.Keyword, K.toList)]) := by
  refine ⟨?_, ?_, ?_, ?_⟩
  · intro K hK c hc
    have hb : boundaryAt (K.toList ++ [c]) K.toList.length = true := by
      rw [boundaryAt_append, boundaryAt_cons_zero, hc]
      rfl
    exact ⟨customText_token hK hc,
      by rw [pulseKeyword_token (Or.inr hK) hb, pulseNonword_single hc]⟩
  · intro K hK
    exact ⟨customText_token_end hK, pulseKeyword_token_end (Or.inr hK)⟩
  · intro K hK c hc
    have hb : boundaryAt (K.toList ++ [c]) K.toList.length = true := by
      rw [boundaryAt_append, boundaryAt_cons_zero, hc]
      rfl
    rw [pulseKeyword_token (Or.inl hK) hb, pulseNonword_single hc]
  · intro K hK
    exact pulseKeyword_token_end (Or.inl hK)

theorem C8_witness :
    (CustomLexer.get_tokens ("fn".toList ++ [' '])
        = [(Tok.Text, "fn".toList), (Tok.Text, [' '])]
      ∧ PulseLexer.get_tokens ("fn".toList ++ [' '])
          = [(Tok.Keyword, "fn".toList), (Tok.Text, [' '])])
  ∧ PulseLexer.get_tokens "fn".toList = [(Tok.Keyword, "fn".toList)] :=
  ⟨C8_extension_vocabulary.1 "fn" (by decide) ' ' (by decide),
   (C8_extension_vocabulary.2.1 "fn" (by decide)).2⟩

end FStarPygments
